import Mathlib

/-!
# Verification of the dev-editor middleware

A shallow embedding of `src/integrations/dev-editor.ts`.  JavaScript strings
are modelled as `List Char` (`JStr`); the helper functions of the source
(`sanitizeFilename`, `slugify`, `frontmatterToYaml`), the POSIX path
operations the handlers call (`path.resolve`, `path.basename`), and the
request dispatcher itself are translated into executable Lean definitions.
Filesystem state is an association list from absolute paths to entries, and
each handler returns the response it would write together with the
filesystem effects it would perform.
-/

namespace DevEditor

/-- JavaScript strings, modelled as lists of characters. -/
abbrev JStr := List Char

/-- Shorthand for embedding a Lean string literal as a `JStr`. -/
def jstr (s : String) : JStr := s.toList

/-! ## Sanitization helpers (`sanitizeFilename`, `slugify`) -/

/-- `String.prototype.toLowerCase` restricted to ASCII: upper-case ASCII
letters are lowered, every other character is returned unchanged.  (Full
Unicode lowering differs only on characters that the subsequent
replacement steps map to `-` anyway.) -/
def jsLower (c : Char) : Char :=
  if 65 ≤ c.toNat ∧ c.toNat ≤ 90 then Char.ofNat (c.toNat + 32) else c

/-- The character class `[a-z0-9.-]` of `sanitizeFilename`. -/
def isSanAllowed (c : Char) : Bool :=
  ('a' ≤ c && c ≤ 'z') || ('0' ≤ c && c ≤ '9') || c == '.' || c == '-'

/-- The character class `[a-z0-9]` of `slugify`. -/
def isAlnumLower (c : Char) : Bool :=
  ('a' ≤ c && c ≤ 'z') || ('0' ≤ c && c ≤ '9')

/-- `.replace(/[^a-z0-9.-]/g, '-')`: every disallowed character becomes `-`. -/
def sanReplace (l : JStr) : JStr :=
  l.map (fun c => if isSanAllowed c then c else '-')

/-- The hyphen-run collapse `.replace(hyphen-run regex, '-')` (pattern
`-+`, global): every maximal run of hyphens becomes a single hyphen. -/
def collapseDashes : JStr → JStr
  | [] => []
  | c :: rest =>
    if c = '-' then '-' :: collapseDashes (rest.dropWhile (fun x => x == '-'))
    else c :: collapseDashes rest
termination_by l => l.length
decreasing_by
  · have := (List.dropWhile_suffix (p := fun x => x == '-') (l := rest)).length_le
    simp only [List.length_cons]
    omega
  · simp only [List.length_cons]
    omega

/-- `.replace(/^-|-$/g, '')` drops one leading hyphen: helper for the edge
stripping shared by both sanitizers. -/
def stripLeadDash : JStr → JStr
  | '-' :: rest => rest
  | l => l

/-- `.replace(/^-|-$/g, '')`: remove a single leading and a single trailing
hyphen (the regex matches each anchor at most once). -/
def stripEdgeDashes (l : JStr) : JStr :=
  (stripLeadDash (stripLeadDash l).reverse).reverse

/-- `sanitizeFilename` from the source: lower-case, replace characters
outside `[a-z0-9.-]` by `-`, collapse hyphen runs, strip edge hyphens. -/
def sanitizeFilename (l : JStr) : JStr :=
  stripEdgeDashes (collapseDashes (sanReplace (l.map jsLower)))

/-- `.replace(/[^a-z0-9]+/g, '-')`: every maximal run of characters outside
`[a-z0-9]` becomes a single hyphen. -/
def slugReplace : JStr → JStr
  | [] => []
  | c :: rest =>
    if isAlnumLower c then c :: slugReplace rest
    else '-' :: slugReplace (rest.dropWhile (fun x => !(isAlnumLower x)))
termination_by l => l.length
decreasing_by
  · simp only [List.length_cons]
    omega
  · have := (List.dropWhile_suffix (p := fun x => !(isAlnumLower x)) (l := rest)).length_le
    simp only [List.length_cons]
    omega

/-- `slugify` from the source: lower-case, collapse runs of characters
outside `[a-z0-9]` to single hyphens, strip edge hyphens. -/
def slugify (l : JStr) : JStr :=
  stripEdgeDashes (slugReplace (l.map jsLower))

/-! ## Normal forms of the sanitizers -/

/-- No two adjacent hyphens. -/
def noDoubleDash : JStr → Bool
  | [] => true
  | [_] => true
  | a :: b :: rest => !(a == '-' && b == '-') && noDoubleDash (b :: rest)

/-- Characters `slugify` can output. -/
def isSlugAllowed (c : Char) : Bool := isAlnumLower c || c == '-'

/-! ### Basic facts about the sanitizer building blocks -/

theorem noDoubleDash_cons (a : Char) (l : JStr) :
    noDoubleDash (a :: l) = (!(a == '-' && l.head? == some '-') && noDoubleDash l) := by
  cases l with
  | nil => simp [noDoubleDash]
  | cons b r => simp [noDoubleDash]

theorem jsLower_eq_of_not_upper {c : Char} (h : ¬(65 ≤ c.toNat ∧ c.toNat ≤ 90)) :
    jsLower c = c := by
  simp [jsLower, h]

theorem isSanAllowed_not_upper {c : Char} (h : isSanAllowed c = true) :
    ¬(65 ≤ c.toNat ∧ c.toNat ≤ 90) := by
  simp only [isSanAllowed, Bool.or_eq_true, Bool.and_eq_true, decide_eq_true_eq,
    beq_iff_eq] at h
  rcases h with ((⟨h1, h2⟩ | ⟨h1, h2⟩) | h) | h
  · simp only [Char.le_def] at h1 h2
    have e1 : ('a' : Char).val.toNat = 97 := by decide
    have e2 : ('z' : Char).val.toNat = 122 := by decide
    have n1 : ('a' : Char).val.toNat ≤ c.val.toNat := h1
    have n2 : c.val.toNat ≤ ('z' : Char).val.toNat := h2
    simp only [Char.toNat]
    omega
  · simp only [Char.le_def] at h1 h2
    have e1 : ('0' : Char).val.toNat = 48 := by decide
    have e2 : ('9' : Char).val.toNat = 57 := by decide
    have n1 : ('0' : Char).val.toNat ≤ c.val.toNat := h1
    have n2 : c.val.toNat ≤ ('9' : Char).val.toNat := h2
    simp only [Char.toNat]
    omega
  · subst h; decide
  · subst h; decide

theorem isAlnumLower_not_upper {c : Char} (h : isAlnumLower c = true) :
    ¬(65 ≤ c.toNat ∧ c.toNat ≤ 90) := by
  apply isSanAllowed_not_upper
  simp only [isSanAllowed, isAlnumLower] at h ⊢
  simp [h]

theorem isSlugAllowed_not_upper {c : Char} (h : isSlugAllowed c = true) :
    ¬(65 ≤ c.toNat ∧ c.toNat ≤ 90) := by
  simp only [isSlugAllowed, Bool.or_eq_true, beq_iff_eq] at h
  rcases h with h | h
  · exact isAlnumLower_not_upper h
  · subst h; decide

theorem isAlnumLower_ne_dash {c : Char} (h : isAlnumLower c = true) : c ≠ '-' := by
  intro hc
  subst hc
  simp [isAlnumLower] at h

theorem isSlugAllowed_of_alnum {c : Char} (h : isAlnumLower c = true) :
    isSlugAllowed c = true := by
  simp [isSlugAllowed, h]

theorem map_jsLower_fixed {l : JStr} (h : ∀ c ∈ l, ¬(65 ≤ c.toNat ∧ c.toNat ≤ 90)) :
    l.map jsLower = l := by
  induction l with
  | nil => rfl
  | cons c rest ih =>
    simp only [List.map_cons]
    rw [jsLower_eq_of_not_upper (h c (by simp)), ih (fun x hx => h x (by simp [hx]))]

theorem sanReplace_all (l : JStr) : ∀ c ∈ sanReplace l, isSanAllowed c = true := by
  intro c hc
  simp only [sanReplace, List.mem_map] at hc
  obtain ⟨a, _, ha⟩ := hc
  by_cases h : isSanAllowed a = true
  · simp only [h, if_true] at ha
    exact ha ▸ h
  · simp only [h, if_false, Bool.false_eq_true] at ha
    subst ha
    decide

theorem sanReplace_fixed {l : JStr} (h : ∀ c ∈ l, isSanAllowed c = true) :
    sanReplace l = l := by
  induction l with
  | nil => rfl
  | cons c rest ih =>
    simp only [sanReplace, List.map_cons, h c (by simp), if_true]
    exact congrArg (c :: ·) (ih (fun x hx => h x (by simp [hx])))

theorem head?_dropWhile_not (p : Char → Bool) (l : JStr) :
    ∀ c, (l.dropWhile p).head? = some c → p c = false := by
  induction l with
  | nil => intro c h; simp at h
  | cons a rest ih =>
    intro c h
    rw [List.dropWhile_cons] at h
    by_cases hp : p a = true
    · exact ih c (by simpa [hp] using h)
    · rw [if_neg hp] at h
      simp only [List.head?_cons, Option.some.injEq] at h
      subst h
      simpa using hp

theorem dropWhile_eq_self_of_head {p : Char → Bool} {l : JStr}
    (h : ∀ c, l.head? = some c → p c = false) : l.dropWhile p = l := by
  cases l with
  | nil => rfl
  | cons a rest =>
    rw [List.dropWhile_cons, if_neg]
    simp [h a rfl]

/-! ### `collapseDashes`: output has no double dash, fixed points, heads -/

theorem collapseDashes_head? (l : JStr) : (collapseDashes l).head? = l.head? := by
  cases l with
  | nil => rw [collapseDashes]
  | cons c rest =>
    rw [collapseDashes]
    by_cases hc : c = '-'
    · simp [hc]
    · simp [hc]

theorem collapseDashes_all {p : Char → Bool} (hd : p '-' = true) :
    ∀ l : JStr, (∀ c ∈ l, p c = true) → ∀ c ∈ collapseDashes l, p c = true := by
  intro l
  induction l using collapseDashes.induct with
  | case1 => intro _ c hc; simp [collapseDashes] at hc
  | case2 rest ih =>
    intro h c hc
    rw [collapseDashes, if_pos rfl] at hc
    rcases List.mem_cons.mp hc with hc | hc
    · exact hc ▸ hd
    · refine ih (fun x hx => h x ?_) c hc
      exact List.mem_cons_of_mem _ ((List.dropWhile_suffix _).sublist.subset hx)
  | case3 c rest hc ih =>
    intro h x hx
    rw [collapseDashes, if_neg hc] at hx
    rcases List.mem_cons.mp hx with hx | hx
    · exact hx ▸ h c (by simp)
    · exact ih (fun y hy => h y (by simp [hy])) x hx

theorem collapseDashes_noDoubleDash (l : JStr) :
    noDoubleDash (collapseDashes l) = true := by
  induction l using collapseDashes.induct with
  | case1 => simp [collapseDashes, noDoubleDash]
  | case2 rest ih =>
    rw [collapseDashes, if_pos rfl, noDoubleDash_cons]
    refine (Bool.and_eq_true _ _).mpr ⟨?_, ih⟩
    rw [collapseDashes_head?]
    cases h : (rest.dropWhile (fun x => x == '-')).head? with
    | none => simp
    | some c =>
      have := head?_dropWhile_not _ rest c h
      simp only [beq_eq_false_iff_ne, ne_eq] at this
      simp [this]
  | case3 c rest hc ih =>
    rw [collapseDashes, if_neg hc, noDoubleDash_cons]
    simp [hc, ih]

theorem collapseDashes_fixed {l : JStr} (h : noDoubleDash l = true) :
    collapseDashes l = l := by
  induction l using collapseDashes.induct with
  | case1 => rw [collapseDashes]
  | case2 rest ih =>
    rw [noDoubleDash_cons] at h
    have h2 := (Bool.and_eq_true _ _).mp h
    have hhead : ∀ c, rest.head? = some c → (c == '-') = false := by
      intro c hc
      have := h2.1
      rw [hc] at this
      simpa using this
    have hdw : rest.dropWhile (fun x => x == '-') = rest :=
      dropWhile_eq_self_of_head hhead
    rw [hdw] at ih
    rw [collapseDashes, if_pos rfl, hdw, ih h2.2]
  | case3 c rest hc ih =>
    rw [noDoubleDash_cons] at h
    have h2 := (Bool.and_eq_true _ _).mp h
    rw [collapseDashes, if_neg hc, ih h2.2]

/-! ### `stripLeadDash` / `stripEdgeDashes` -/

theorem stripLeadDash_eq_of_head {l : JStr} (h : l.head? ≠ some '-') :
    stripLeadDash l = l := by
  match l with
  | [] => rfl
  | c :: rest =>
    have hc : c ≠ '-' := by
      intro hc
      exact h (by simp [hc])
    match l, c, hc with
    | _, '-', hc => exact absurd rfl hc
    | _, 'a', _ => rfl
    | _, c, hc =>
      rw [stripLeadDash]
      · intro rest' heq
        injection heq with h1 _
        exact hc h1

theorem stripLeadDash_mem {l : JStr} {c : Char} (h : c ∈ stripLeadDash l) : c ∈ l := by
  match l with
  | [] => exact h
  | '-' :: rest => exact List.mem_cons_of_mem _ h
  | a :: rest =>
    by_cases ha : a = '-'
    · subst ha
      exact List.mem_cons_of_mem _ h
    · rwa [stripLeadDash_eq_of_head (by simp [ha])] at h

theorem noDoubleDash_tail {a : Char} {l : JStr} (h : noDoubleDash (a :: l) = true) :
    noDoubleDash l = true := by
  rw [noDoubleDash_cons] at h
  exact ((Bool.and_eq_true _ _).mp h).2

theorem noDoubleDash_stripLead {l : JStr} (h : noDoubleDash l = true) :
    noDoubleDash (stripLeadDash l) = true := by
  match l with
  | [] => exact h
  | '-' :: rest => exact noDoubleDash_tail h
  | a :: rest =>
    by_cases ha : a = '-'
    · subst ha
      exact noDoubleDash_tail h
    · rwa [stripLeadDash_eq_of_head (by simp [ha])]

theorem stripLead_head_not_dash {l : JStr} (h : noDoubleDash l = true) :
    ∀ c, (stripLeadDash l).head? = some c → c ≠ '-' := by
  intro c hc hdash
  subst hdash
  match l with
  | [] => simp [stripLeadDash] at hc
  | '-' :: rest =>
    rw [noDoubleDash_cons] at h
    have h1 := ((Bool.and_eq_true _ _).mp h).1
    have hs : stripLeadDash ('-' :: rest) = rest := rfl
    rw [hs] at hc
    rw [hc] at h1
    simp at h1
  | a :: rest =>
    by_cases ha : a = '-'
    · subst ha
      rw [noDoubleDash_cons] at h
      have h1 := ((Bool.and_eq_true _ _).mp h).1
      have hs : stripLeadDash ('-' :: rest) = rest := rfl
      rw [hs] at hc
      rw [hc] at h1
      simp at h1
    · rw [stripLeadDash_eq_of_head (by simp [ha])] at hc
      simp only [List.head?_cons, Option.some.injEq] at hc
      exact ha hc

theorem stripLead_getLast_not_dash {l : JStr}
    (h : ∀ c, l.getLast? = some c → c ≠ '-') :
    ∀ c, (stripLeadDash l).getLast? = some c → c ≠ '-' := by
  intro c hc
  match l with
  | [] => simp [stripLeadDash] at hc
  | '-' :: rest =>
    have hs : stripLeadDash ('-' :: rest) = rest := rfl
    rw [hs] at hc
    match rest, hc with
    | b :: r, hc =>
      apply h
      rw [List.getLast?_cons_cons]
      exact hc
  | a :: rest =>
    by_cases ha : a = '-'
    · subst ha
      have hs : stripLeadDash ('-' :: rest) = rest := rfl
      rw [hs] at hc
      match rest, hc with
      | b :: r, hc =>
        apply h
        rw [List.getLast?_cons_cons]
        exact hc
    · rw [stripLeadDash_eq_of_head (by simp [ha])] at hc
      exact h c hc

theorem noDoubleDash_concat (l : JStr) (x : Char) :
    noDoubleDash (l ++ [x])
      = (noDoubleDash l && !(l.getLast? == some '-' && x == '-')) := by
  induction l with
  | nil => simp [noDoubleDash]
  | cons a rest ih =>
    cases rest with
    | nil =>
      have hl : ((a :: ([] : JStr)) ++ [x]) = [a, x] := rfl
      have hg : (a :: ([] : JStr)).getLast? = some a := rfl
      rw [hl, hg]
      simp only [noDoubleDash]
      cases ha : a == '-' <;> cases hx : x == '-' <;> simp [ha, hx]
    | cons b r =>
      have hl : ((a :: b :: r) ++ [x]) = a :: ((b :: r) ++ [x]) := rfl
      have hh : ((b :: r) ++ [x]).head? = some b := rfl
      rw [hl, noDoubleDash_cons a ((b :: r) ++ [x]), hh, ih,
        noDoubleDash_cons a (b :: r), List.getLast?_cons_cons]
      cases hab : a == '-' <;> cases hbb : b == '-' <;>
        cases hg : (b :: r).getLast? == some '-' <;> cases hx : x == '-' <;>
        simp [hab, hbb, hg, hx, List.head?_cons]

theorem noDoubleDash_reverse (l : JStr) : noDoubleDash l.reverse = noDoubleDash l := by
  induction l with
  | nil => rfl
  | cons c rest ih =>
    rw [List.reverse_cons, noDoubleDash_concat, ih, List.getLast?_reverse,
      noDoubleDash_cons]
    cases hc : c == '-' <;> cases hh : rest.head? == some '-' <;> simp [hc, hh]

theorem stripEdge_mem {l : JStr} {c : Char} (h : c ∈ stripEdgeDashes l) : c ∈ l := by
  rw [stripEdgeDashes] at h
  rw [List.mem_reverse] at h
  have h2 := stripLeadDash_mem h
  rw [List.mem_reverse] at h2
  exact stripLeadDash_mem h2

theorem noDoubleDash_stripEdge {l : JStr} (h : noDoubleDash l = true) :
    noDoubleDash (stripEdgeDashes l) = true := by
  rw [stripEdgeDashes, noDoubleDash_reverse]
  apply noDoubleDash_stripLead
  rw [noDoubleDash_reverse]
  exact noDoubleDash_stripLead h

theorem stripEdge_head_not_dash {l : JStr} (h : noDoubleDash l = true) :
    ∀ c, (stripEdgeDashes l).head? = some c → c ≠ '-' := by
  intro c hc
  rw [stripEdgeDashes, List.head?_reverse] at hc
  refine stripLead_getLast_not_dash ?_ c hc
  intro d hd
  rw [List.getLast?_reverse] at hd
  exact stripLead_head_not_dash h d hd

theorem stripEdge_getLast_not_dash {l : JStr} (h : noDoubleDash l = true) :
    ∀ c, (stripEdgeDashes l).getLast? = some c → c ≠ '-' := by
  intro c hc
  rw [stripEdgeDashes, List.getLast?_reverse] at hc
  refine stripLead_head_not_dash ?_ c hc
  rw [noDoubleDash_reverse]
  exact noDoubleDash_stripLead h

theorem stripEdge_fixed {l : JStr} (hh : l.head? ≠ some '-')
    (hl : l.getLast? ≠ some '-') : stripEdgeDashes l = l := by
  rw [stripEdgeDashes, stripLeadDash_eq_of_head hh,
    stripLeadDash_eq_of_head (by rwa [List.head?_reverse]), List.reverse_reverse]

/-! ### `slugReplace` -/

theorem slugReplace_all (l : JStr) : ∀ c ∈ slugReplace l, isSlugAllowed c = true := by
  induction l using slugReplace.induct with
  | case1 => intro c hc; simp [slugReplace] at hc
  | case2 c rest hc ih =>
    intro x hx
    rw [slugReplace, if_pos hc] at hx
    rcases List.mem_cons.mp hx with hx | hx
    · exact hx ▸ isSlugAllowed_of_alnum hc
    · exact ih x hx
  | case3 c rest hc ih =>
    intro x hx
    rw [slugReplace, if_neg hc] at hx
    rcases List.mem_cons.mp hx with hx | hx
    · subst hx; decide
    · exact ih x hx

theorem slugReplace_drop_head_not_dash (rest : JStr) :
    ∀ c, (slugReplace (rest.dropWhile (fun x => !(isAlnumLower x)))).head? = some c →
      c ≠ '-' := by
  intro c hc
  cases hd : rest.dropWhile (fun x => !(isAlnumLower x)) with
  | nil =>
    rw [hd] at hc
    rw [slugReplace] at hc
    simp at hc
  | cons a r =>
    have ha : (!(isAlnumLower a)) = false := by
      apply head?_dropWhile_not (fun x => !(isAlnumLower x)) rest
      rw [hd]
      rfl
    have ha' : isAlnumLower a = true := by simpa using ha
    rw [hd, slugReplace, if_pos ha'] at hc
    simp only [List.head?_cons, Option.some.injEq] at hc
    exact hc ▸ isAlnumLower_ne_dash ha'

theorem slugReplace_noDoubleDash (l : JStr) : noDoubleDash (slugReplace l) = true := by
  induction l using slugReplace.induct with
  | case1 => rw [slugReplace]; rfl
  | case2 c rest hc ih =>
    rw [slugReplace, if_pos hc, noDoubleDash_cons]
    have : (c == '-') = false := by
      simp [isAlnumLower_ne_dash hc]
    simp [this, ih]
  | case3 c rest hc ih =>
    rw [slugReplace, if_neg hc, noDoubleDash_cons]
    refine (Bool.and_eq_true _ _).mpr ⟨?_, ih⟩
    cases hh : (slugReplace (rest.dropWhile (fun x => !(isAlnumLower x)))).head? with
    | none => simp
    | some d =>
      have := slugReplace_drop_head_not_dash rest d hh
      simp [this]

theorem slugReplace_fixed {l : JStr} (hall : ∀ c ∈ l, isSlugAllowed c = true)
    (hnd : noDoubleDash l = true) : slugReplace l = l := by
  induction l using slugReplace.induct with
  | case1 => rw [slugReplace]
  | case2 c rest hc ih =>
    rw [slugReplace, if_pos hc,
      ih (fun x hx => hall x (by simp [hx])) (noDoubleDash_tail hnd)]
  | case3 c rest hc ih =>
    have hcd : c = '-' := by
      have := hall c (by simp)
      simp only [isSlugAllowed, Bool.or_eq_true, beq_iff_eq] at this
      rcases this with h | h
      · exact absurd h hc
      · exact h
    subst hcd
    have hhead : ∀ x, rest.head? = some x → (!(isAlnumLower x)) = false := by
      intro x hx
      have hmem : x ∈ rest := by
        cases rest with
        | nil => simp at hx
        | cons b r =>
          simp only [List.head?_cons, Option.some.injEq] at hx
          exact hx ▸ List.mem_cons_self _ _
      have hxa := hall x (by simp [hmem])
      rw [noDoubleDash_cons] at hnd
      have h1 := ((Bool.and_eq_true _ _).mp hnd).1
      rw [hx] at h1
      have hxd : x ≠ '-' := by
        intro hxe
        subst hxe
        simp at h1
      simp only [isSlugAllowed, Bool.or_eq_true, beq_iff_eq] at hxa
      rcases hxa with h | h
      · simp [h]
      · exact absurd h hxd
    have hdw : rest.dropWhile (fun x => !(isAlnumLower x)) = rest :=
      dropWhile_eq_self_of_head hhead
    rw [hdw] at ih
    rw [slugReplace, if_neg hc, hdw,
      ih (fun x hx => hall x (by simp [hx])) (noDoubleDash_tail hnd)]

/-! ### Normal-form theorems for the two sanitizers -/

theorem sanitizeFilename_normal (l : JStr) :
    (∀ c ∈ sanitizeFilename l, isSanAllowed c = true)
    ∧ noDoubleDash (sanitizeFilename l) = true
    ∧ (∀ c, (sanitizeFilename l).head? = some c → c ≠ '-')
    ∧ (∀ c, (sanitizeFilename l).getLast? = some c → c ≠ '-') := by
  have hnd : noDoubleDash (collapseDashes (sanReplace ((l.map jsLower)))) = true :=
    collapseDashes_noDoubleDash _
  refine ⟨?_, ?_, ?_, ?_⟩
  · intro c hc
    have h1 := stripEdge_mem hc
    exact collapseDashes_all (by decide) _ (sanReplace_all _) c h1
  · exact noDoubleDash_stripEdge hnd
  · exact stripEdge_head_not_dash hnd
  · exact stripEdge_getLast_not_dash hnd

theorem slugify_normal (l : JStr) :
    (∀ c ∈ slugify l, isSlugAllowed c = true)
    ∧ noDoubleDash (slugify l) = true
    ∧ (∀ c, (slugify l).head? = some c → c ≠ '-')
    ∧ (∀ c, (slugify l).getLast? = some c → c ≠ '-') := by
  have hnd : noDoubleDash (slugReplace (l.map jsLower)) = true :=
    slugReplace_noDoubleDash _
  refine ⟨?_, ?_, ?_, ?_⟩
  · intro c hc
    exact slugReplace_all _ c (stripEdge_mem hc)
  · exact noDoubleDash_stripEdge hnd
  · exact stripEdge_head_not_dash hnd
  · exact stripEdge_getLast_not_dash hnd

theorem sanitizeFilename_fixed {l : JStr}
    (hall : ∀ c ∈ l, isSanAllowed c = true)
    (hnd : noDoubleDash l = true)
    (hh : ∀ c, l.head? = some c → c ≠ '-')
    (hl : ∀ c, l.getLast? = some c → c ≠ '-') :
    sanitizeFilename l = l := by
  rw [sanitizeFilename,
    map_jsLower_fixed (fun c hc => isSanAllowed_not_upper (hall c hc)),
    sanReplace_fixed hall, collapseDashes_fixed hnd]
  apply stripEdge_fixed
  · intro he
    exact hh '-' he rfl
  · intro he
    exact hl '-' he rfl

theorem slugify_fixed {l : JStr}
    (hall : ∀ c ∈ l, isSlugAllowed c = true)
    (hnd : noDoubleDash l = true)
    (hh : ∀ c, l.head? = some c → c ≠ '-')
    (hl : ∀ c, l.getLast? = some c → c ≠ '-') :
    slugify l = l := by
  rw [slugify,
    map_jsLower_fixed (fun c hc => isSlugAllowed_not_upper (hall c hc)),
    slugReplace_fixed hall hnd]
  apply stripEdge_fixed
  · intro he
    exact hh '-' he rfl
  · intro he
    exact hl '-' he rfl

/-- C3: both sanitization functions are idempotent: a second application of
`sanitizeFilename` or of `slugify` leaves its own output unchanged. -/
theorem sanitize_and_slugify_idempotent (l : JStr) :
    sanitizeFilename (sanitizeFilename l) = sanitizeFilename l
    ∧ slugify (slugify l) = slugify l := by
  obtain ⟨a1, a2, a3, a4⟩ := sanitizeFilename_normal l
  obtain ⟨b1, b2, b3, b4⟩ := slugify_normal l
  exact ⟨sanitizeFilename_fixed a1 a2 a3 a4, slugify_fixed b1 b2 b3 b4⟩

/-- C4: `sanitizeFilename` outputs only lower-case letters, digits, dots and
hyphens, never two adjacent hyphens, and never a leading or trailing hyphen;
`slugify` outputs only lower-case letters, digits and hyphens, never a
leading or trailing hyphen. -/
theorem sanitize_and_slugify_strip_disallowed (l : JStr) :
    ((∀ c ∈ sanitizeFilename l, isSanAllowed c = true)
      ∧ noDoubleDash (sanitizeFilename l) = true
      ∧ (sanitizeFilename l).head? ≠ some '-'
      ∧ (sanitizeFilename l).getLast? ≠ some '-')
    ∧ ((∀ c ∈ slugify l, isSlugAllowed c = true)
      ∧ (slugify l).head? ≠ some '-'
      ∧ (slugify l).getLast? ≠ some '-') := by
  obtain ⟨a1, a2, a3, a4⟩ := sanitizeFilename_normal l
  obtain ⟨b1, _, b3, b4⟩ := slugify_normal l
  refine ⟨⟨a1, a2, ?_, ?_⟩, ⟨b1, ?_, ?_⟩⟩
  · intro he; exact a3 '-' he rfl
  · intro he; exact a4 '-' he rfl
  · intro he; exact b3 '-' he rfl
  · intro he; exact b4 '-' he rfl

/-! ## Front matter and `frontmatterToYaml`

The create handler receives `frontmatter` from `readJsonBody`, i.e. from
`JSON.parse`, so its values are JSON values: strings, numbers, booleans and
arrays (of strings, per the content schemas).  `Date` instances cannot
occur, so the `value instanceof Date` half of the source's first test is
vacuously false; the date-regex half applies to strings and is modelled.
Numbers are modelled as integers (floating point is outside the model). -/

/-- A front-matter value as submitted to the create endpoint. -/
inductive FmValue where
  | str (s : JStr)
  | num (n : Int)
  | bool (b : Bool)
  | arr (xs : List JStr)
deriving DecidableEq, Repr

/-- ASCII digit test. -/
def isDigitCh (c : Char) : Bool := 48 ≤ c.toNat && c.toNat ≤ 57

/-- The date regex of the source (anchored `\d` 4, dash, 2, dash, 2). -/
def dateLike (s : JStr) : Bool :=
  match s with
  | [a, b, c, d, h1, e, f, h2, g, i] =>
    isDigitCh a && isDigitCh b && isDigitCh c && isDigitCh d && h1 == '-' &&
    isDigitCh e && isDigitCh f && h2 == '-' && isDigitCh g && isDigitCh i
  | _ => false

/-- The quoting test of the source: the string contains a colon, hash,
double quote or single quote. -/
def needsQuote (s : JStr) : Bool :=
  s.contains ':' || s.contains '#' || s.contains '"' || s.contains '\''

/-- `value.replace(quote regex, backslash-quote)`: a backslash is inserted
before every double quote. -/
def escapeQuotes : JStr → JStr
  | [] => []
  | c :: rest =>
    if c = '"' then '\\' :: '"' :: escapeQuotes rest else c :: escapeQuotes rest

/-- Decimal digit characters of a natural number, most significant first:
the characters `String(n)` produces. -/
def natChars (n : Nat) : JStr :=
  if h : n < 10 then [Char.ofNat (48 + n)]
  else natChars (n / 10) ++ [Char.ofNat (48 + n % 10)]
termination_by n
decreasing_by
  exact Nat.div_lt_self (by omega) (by omega)

/-- The characters `String(i)` produces for an integer. -/
def intChars (i : Int) : JStr :=
  if i < 0 then '-' :: natChars i.natAbs else natChars i.natAbs

/-- `Array.prototype.join` with a newline separator. -/
def joinNL : List JStr → JStr
  | [] => []
  | [x] => x
  | x :: xs => x ++ '\n' :: joinNL xs

/-- The `.map` callback of `frontmatterToYaml`: `none` is the `null`
returned for an empty array (removed by `.filter(Boolean)`). -/
def entryToYaml : JStr × FmValue → Option JStr
  | (key, FmValue.str s) =>
    if dateLike s then some (key ++ jstr ": " ++ s)
    else if needsQuote s then
      some (key ++ jstr ": " ++ ('"' :: (escapeQuotes s ++ ['"'])))
    else some (key ++ jstr ": " ++ s)
  | (key, FmValue.arr xs) =>
    if xs.isEmpty then none
    else some (key ++ jstr ":\n" ++ joinNL (xs.map (fun v => jstr "  - " ++ v)))
  | (key, FmValue.bool b) =>
    some (key ++ jstr ": " ++ (if b then jstr "true" else jstr "false"))
  | (key, FmValue.num n) => some (key ++ jstr ": " ++ intChars n)

/-- `frontmatterToYaml` from the source: map the entries, filter out the
`null`s, join with newlines. -/
def frontmatterToYaml (fm : List (JStr × FmValue)) : JStr :=
  joinNL (fm.filterMap entryToYaml)

/-- Entries whose value is the empty array. -/
def isEmptyArr : JStr × FmValue → Bool
  | (_, FmValue.arr []) => true
  | _ => false

theorem entryToYaml_empty_arr (key : JStr) :
    entryToYaml (key, FmValue.arr []) = none := rfl

theorem entryToYaml_eq_none_iff (e : JStr × FmValue) :
    entryToYaml e = none ↔ isEmptyArr e = true := by
  obtain ⟨k, v⟩ := e
  cases v with
  | str s =>
    simp only [entryToYaml, isEmptyArr]
    constructor
    · intro h
      split at h
      · simp at h
      · split at h <;> simp at h
    · intro h
      simp at h
  | num n => simp [entryToYaml, isEmptyArr]
  | bool b => simp [entryToYaml, isEmptyArr]
  | arr xs =>
    cases xs with
    | nil => simp [entryToYaml, isEmptyArr]
    | cons x r => simp [entryToYaml, isEmptyArr]

/-- C10: `frontmatterToYaml` silently omits empty-array entries: the entry
mapper returns `null` for them, and the generated YAML equals the YAML of
the front matter with all empty-array entries removed. -/
theorem frontmatter_omits_empty_arrays :
    (∀ key : JStr, entryToYaml (key, FmValue.arr []) = none)
    ∧ ∀ fm : List (JStr × FmValue),
        frontmatterToYaml fm
          = frontmatterToYaml (fm.filter (fun e => !(isEmptyArr e))) := by
  refine ⟨fun key => rfl, fun fm => ?_⟩
  unfold frontmatterToYaml
  congr 1
  induction fm with
  | nil => rfl
  | cons e rest ih =>
    by_cases he : isEmptyArr e = true
    · rw [List.filter_cons, if_neg (by simp [he]),
        List.filterMap_cons, (entryToYaml_eq_none_iff e).mpr he, ih]
    · have hs : ∃ y, entryToYaml e = some y := by
        cases h : entryToYaml e with
        | none => exact absurd ((entryToYaml_eq_none_iff e).mp h) he
        | some y => exact ⟨y, rfl⟩
      obtain ⟨y, hy⟩ := hs
      rw [List.filter_cons, if_pos (by simp [he]), List.filterMap_cons, hy,
        List.filterMap_cons, hy, ih]

/-! ## A YAML parser for the generated front-matter block

The written file is `---\n{yaml}\n---\n\n{body}`; the claim concerns the
text between the delimiters, i.e. `frontmatterToYaml frontmatter`.  The
parser below models how a YAML reader interprets that text: split into
lines; `key: value` lines are scalars classified as quoted string, boolean,
integer, or plain string; a `key:` line followed by `  - item` lines is an
array of strings. -/

/-- Split a character list at newlines (the empty text is one empty line). -/
def splitLines : JStr → List JStr
  | [] => [[]]
  | c :: rest =>
    if c = '\n' then [] :: splitLines rest
    else
      match splitLines rest with
      | [] => [[c]]
      | l :: ls => (c :: l) :: ls

/-- Split a line at its first colon. -/
def findColon : JStr → Option (JStr × JStr)
  | [] => none
  | c :: rest =>
    if c = ':' then some ([], rest)
    else
      match findColon rest with
      | none => none
      | some (k, v) => some (c :: k, v)

/-- A nonempty all-digit run, as a number. -/
def parseDigits (l : JStr) : Option Nat :=
  if l ≠ [] ∧ l.all isDigitCh then
    some (l.foldl (fun acc c => acc * 10 + (c.toNat - 48)) 0)
  else none

/-- An optional minus sign followed by digits. -/
def parseIntChars (l : JStr) : Option Int :=
  if l.head? = some '-' then (parseDigits l.tail).map (fun n => -(n : Int))
  else (parseDigits l).map (fun n => (n : Int))

/-- Undo `escapeQuotes`: a backslash immediately before a double quote is
dropped. -/
def unescapeQuotes : JStr → JStr
  | [] => []
  | [c] => [c]
  | a :: b :: rest =>
    if a = '\\' ∧ b = '"' then '"' :: unescapeQuotes rest
    else a :: unescapeQuotes (b :: rest)

/-- Classify a scalar value: double-quoted string, boolean literal,
integer literal, or plain string. -/
def classify (v : JStr) : FmValue :=
  if v.head? = some '"' ∧ v.getLast? = some '"' ∧ 2 ≤ v.length then
    FmValue.str (unescapeQuotes ((v.drop 1).dropLast))
  else if v = jstr "true" then FmValue.bool true
  else if v = jstr "false" then FmValue.bool false
  else
    match parseIntChars v with
    | some n => FmValue.num n
    | none => FmValue.str v

/-- A block-sequence item line `  - item`. -/
def isItemLine (l : JStr) : Bool := (jstr "  - ").isPrefixOf l

/-- Parse the lines of the front-matter block into entries. -/
def parseLines : List JStr → Option (List (JStr × FmValue))
  | [] => some []
  | line :: rest =>
    if isItemLine line then none
    else
      match findColon line with
      | none => none
      | some (key, after) =>
        match after with
        | [] =>
          match parseLines (rest.dropWhile isItemLine) with
          | none => none
          | some entries =>
            some ((key,
              FmValue.arr ((rest.takeWhile isItemLine).map (fun l => l.drop 4)))
              :: entries)
        | ' ' :: v =>
          match parseLines rest with
          | none => none
          | some entries => some ((key, classify v) :: entries)
        | _ => none
termination_by ls => ls.length
decreasing_by
  · simp only [List.length_cons]
    exact Nat.lt_succ_of_le (List.dropWhile_suffix isItemLine).length_le
  · simp only [List.length_cons]
    omega

/-- Parse a front-matter block. -/
def parseYaml (y : JStr) : Option (List (JStr × FmValue)) :=
  if y = [] then some [] else parseLines (splitLines y)

/-! ### Inputs on which the generated YAML is unambiguous -/

/-- A key the generated line encodes unambiguously: nonempty, no colon,
newline, hash or quote, and not led by a space or dash. -/
def safeKey (k : JStr) : Bool :=
  !k.isEmpty && !k.contains ':' && !k.contains '\n' && !k.contains '#' &&
  !k.contains '"' && !(k.head? == some ' ') && !(k.head? == some '-')

/-- A string value whose generated scalar a YAML reader returns verbatim:
nonempty, no newline or backslash, no edge spaces, and not itself a
boolean or integer literal. -/
def safeScalarStr (s : JStr) : Bool :=
  !s.isEmpty && !s.contains '\n' && !s.contains '\\' &&
  !(s.head? == some ' ') && !(s.getLast? == some ' ') &&
  s != jstr "true" && s != jstr "false" && (parseIntChars s).isNone

/-- An array item whose generated `  - item` line a YAML reader returns
verbatim. -/
def safeItem (v : JStr) : Bool :=
  !v.isEmpty && !v.contains '\n' && !v.contains ':' && !v.contains '#' &&
  !v.contains '"' && !(v.head? == some ' ') && !(v.head? == some '-') &&
  !(v.getLast? == some ' ') &&
  v != jstr "true" && v != jstr "false" && (parseIntChars v).isNone

/-- A front-matter entry within the round-trip model. -/
def safeEntry : JStr × FmValue → Bool
  | (k, FmValue.str s) => safeKey k && safeScalarStr s
  | (k, FmValue.num _) => safeKey k
  | (k, FmValue.bool _) => safeKey k
  | (k, FmValue.arr xs) => safeKey k && xs.all safeItem

/-! ### Line splitting -/

theorem splitLines_ne_nil (l : JStr) : splitLines l ≠ [] := by
  cases l with
  | nil => simp [splitLines]
  | cons c rest =>
    rw [splitLines]
    by_cases hc : c = '\n'
    · simp [hc]
    · simp only [if_neg hc]
      cases h : splitLines rest <;> simp

theorem splitLines_no_newline {l : JStr} (h : ∀ c ∈ l, c ≠ '\n') :
    splitLines l = [l] := by
  induction l with
  | nil => rfl
  | cons c rest ih =>
    rw [splitLines, if_neg (h c (by simp)), ih (fun x hx => h x (by simp [hx]))]

theorem splitLines_append (a b : JStr) :
    splitLines (a ++ '\n' :: b) = splitLines a ++ splitLines b := by
  induction a with
  | nil => simp [splitLines]
  | cons c a' ih =>
    by_cases hc : c = '\n'
    · subst hc
      rw [List.cons_append, splitLines, if_pos rfl, ih, splitLines, if_pos rfl,
        List.cons_append]
    · rw [List.cons_append, splitLines, if_neg hc, ih, splitLines, if_neg hc]
      cases h : splitLines a' with
      | nil => exact absurd h (splitLines_ne_nil a')
      | cons l ls => simp

/-! ### Colon splitting -/

theorem findColon_append {k : JStr} (v : JStr) (hk : ∀ c ∈ k, c ≠ ':') :
    findColon (k ++ ':' :: v) = some (k, v) := by
  induction k with
  | nil => simp [findColon]
  | cons c k' ih =>
    rw [List.cons_append, findColon, if_neg (hk c (by simp)),
      ih (fun x hx => hk x (by simp [hx]))]

/-! ### takeWhile and dropWhile over a prefix of items -/

theorem takeWhile_append_of_all {α : Type} {p : α → Bool} {a b : List α}
    (ha : ∀ x ∈ a, p x = true) (hb : ∀ x, b.head? = some x → p x = false) :
    (a ++ b).takeWhile p = a ∧ (a ++ b).dropWhile p = b := by
  induction a with
  | nil =>
    simp only [List.nil_append]
    cases b with
    | nil => simp
    | cons x r =>
      have := hb x rfl
      simp [List.takeWhile_cons, List.dropWhile_cons, this]
  | cons x a' ih =>
    have hx := ha x (by simp)
    obtain ⟨h1, h2⟩ := ih (fun y hy => ha y (by simp [hy]))
    simp [List.takeWhile_cons, List.dropWhile_cons, hx, h1, h2]

/-! ### Decimal printing and parsing invert each other -/

theorem digitChar_spec :
    ∀ k, k < 10 →
      (Char.ofNat (48 + k)).toNat = 48 + k
      ∧ isDigitCh (Char.ofNat (48 + k)) = true := by decide

theorem natChars_all_digits (n : Nat) : ∀ c ∈ natChars n, isDigitCh c = true := by
  induction n using Nat.strong_induction_on with
  | _ n ih =>
    rw [natChars]
    by_cases h : n < 10
    · simp only [dif_pos h]
      intro c hc
      simp only [List.mem_singleton] at hc
      subst hc
      exact (digitChar_spec n h).2
    · simp only [dif_neg h]
      intro c hc
      rcases List.mem_append.mp hc with hc | hc
      · exact ih (n / 10) (Nat.div_lt_self (by omega) (by omega)) c hc
      · simp only [List.mem_singleton] at hc
        subst hc
        exact (digitChar_spec (n % 10) (Nat.mod_lt _ (by omega))).2

theorem natChars_ne_nil (n : Nat) : natChars n ≠ [] := by
  rw [natChars]
  by_cases h : n < 10 <;> simp [h]

theorem foldl_natChars (n : Nat) :
    (natChars n).foldl (fun acc c => acc * 10 + (c.toNat - 48)) 0 = n := by
  induction n using Nat.strong_induction_on with
  | _ n ih =>
    rw [natChars]
    by_cases h : n < 10
    · simp only [dif_pos h, List.foldl_cons, List.foldl_nil]
      rw [(digitChar_spec n h).1]
      omega
    · simp only [dif_neg h, List.foldl_append, List.foldl_cons, List.foldl_nil]
      rw [ih (n / 10) (Nat.div_lt_self (by omega) (by omega)),
        (digitChar_spec (n % 10) (Nat.mod_lt _ (by omega))).1]
      omega

theorem parseDigits_natChars (n : Nat) : parseDigits (natChars n) = some n := by
  rw [parseDigits,
    if_pos ⟨natChars_ne_nil n, List.all_eq_true.mpr (natChars_all_digits n)⟩,
    foldl_natChars]

theorem natChars_head_digit (n : Nat) :
    ∀ c, (natChars n).head? = some c → isDigitCh c = true := by
  intro c hc
  cases h : natChars n with
  | nil => exact absurd h (natChars_ne_nil n)
  | cons a r =>
    rw [h] at hc
    simp only [List.head?_cons, Option.some.injEq] at hc
    subst hc
    exact natChars_all_digits n a (h ▸ List.mem_cons_self _ _)

theorem isDigitCh_ne_dash {c : Char} (h : isDigitCh c = true) : c ≠ '-' := by
  intro hc
  subst hc
  simp [isDigitCh] at h

theorem isDigitCh_ne_quote {c : Char} (h : isDigitCh c = true) : c ≠ '"' := by
  intro hc
  subst hc
  simp [isDigitCh] at h

theorem parseIntChars_intChars (i : Int) : parseIntChars (intChars i) = some i := by
  rw [intChars]
  by_cases h : i < 0
  · rw [if_pos h, parseIntChars]
    have hh : ('-' :: natChars i.natAbs).head? = some '-' := rfl
    rw [if_pos hh]
    show (parseDigits (natChars i.natAbs)).map (fun n => -(n : Int)) = some i
    rw [parseDigits_natChars]
    show some (-((i.natAbs : Nat) : Int)) = some i
    exact congrArg some (by omega)
  · rw [if_neg h, parseIntChars]
    have hne : (natChars i.natAbs).head? ≠ some '-' := by
      intro hc
      exact isDigitCh_ne_dash (natChars_head_digit _ _ hc) rfl
    rw [if_neg hne, parseDigits_natChars]
    show some (((i.natAbs : Nat) : Int)) = some i
    exact congrArg some (by omega)

/-! ### Quote escaping inverts -/

theorem escapeQuotes_ne_nil {s : JStr} (h : s ≠ []) : escapeQuotes s ≠ [] := by
  cases s with
  | nil => exact absurd rfl h
  | cons c r =>
    rw [escapeQuotes]
    by_cases hc : c = '"' <;> simp [hc]

theorem escapeQuotes_mem {s : JStr} {c : Char} (h : c ∈ escapeQuotes s) :
    c ∈ s ∨ c = '\\' ∨ c = '"' := by
  induction s with
  | nil => simp [escapeQuotes] at h
  | cons a r ih =>
    rw [escapeQuotes] at h
    by_cases ha : a = '"'
    · rw [if_pos ha] at h
      rcases List.mem_cons.mp h with h | h
      · exact Or.inr (Or.inl h)
      · rcases List.mem_cons.mp h with h | h
        · exact Or.inr (Or.inr h)
        · rcases ih h with h | h
          · exact Or.inl (List.mem_cons_of_mem _ h)
          · exact Or.inr h
    · rw [if_neg ha] at h
      rcases List.mem_cons.mp h with h | h
      · exact Or.inl (h ▸ List.mem_cons_self _ _)
      · rcases ih h with h | h
        · exact Or.inl (List.mem_cons_of_mem _ h)
        · exact Or.inr h

theorem unescape_escape {s : JStr} (h : '\\' ∉ s) :
    unescapeQuotes (escapeQuotes s) = s := by
  induction s with
  | nil => rfl
  | cons c rest ih =>
    have hc : c ≠ '\\' := fun he => h (he ▸ List.mem_cons_self _ _)
    have hr : '\\' ∉ rest := fun hm => h (List.mem_cons_of_mem _ hm)
    rw [escapeQuotes]
    by_cases hq : c = '"'
    · rw [if_pos hq]
      rw [unescapeQuotes, if_pos ⟨rfl, rfl⟩, ih hr, hq]
    · rw [if_neg hq]
      cases he : escapeQuotes rest with
      | nil =>
        have : rest = [] := by
          by_contra hne
          exact escapeQuotes_ne_nil hne he
        rw [this, unescapeQuotes]
      | cons y t =>
        rw [unescapeQuotes, if_neg (fun hcon => hc hcon.1), ← he, ih hr]

/-! ### Classification of generated scalars -/

theorem intChars_head (i : Int) :
    ∀ c, (intChars i).head? = some c → c = '-' ∨ isDigitCh c = true := by
  intro c hc
  rw [intChars] at hc
  by_cases h : i < 0
  · rw [if_pos h] at hc
    simp only [List.head?_cons, Option.some.injEq] at hc
    exact Or.inl hc.symm
  · rw [if_neg h] at hc
    exact Or.inr (natChars_head_digit _ _ hc)

theorem classify_intChars (i : Int) : classify (intChars i) = FmValue.num i := by
  have hp := parseIntChars_intChars i
  have h1 : ¬((intChars i).head? = some '"' ∧ (intChars i).getLast? = some '"'
      ∧ 2 ≤ (intChars i).length) := by
    rintro ⟨hh, -, -⟩
    rcases intChars_head i _ hh with h | h
    · exact absurd h (by decide)
    · exact absurd h (by decide)
  have h2 : intChars i ≠ jstr "true" := by
    intro he
    rw [he] at hp
    have hn : parseIntChars (jstr "true") = none := by decide
    rw [hn] at hp
    exact Option.noConfusion hp
  have h3 : intChars i ≠ jstr "false" := by
    intro he
    rw [he] at hp
    have hn : parseIntChars (jstr "false") = none := by decide
    rw [hn] at hp
    exact Option.noConfusion hp
  rw [classify, if_neg h1, if_neg h2, if_neg h3, hp]

theorem classify_true : classify (jstr "true") = FmValue.bool true := by decide

theorem classify_false : classify (jstr "false") = FmValue.bool false := by decide

theorem classify_plain {s : JStr} (hs : safeScalarStr s = true)
    (hq : needsQuote s = false) : classify s = FmValue.str s := by
  simp only [safeScalarStr, Bool.and_eq_true] at hs
  obtain ⟨⟨⟨⟨⟨⟨⟨hne, hnl⟩, hbs⟩, hsp1⟩, hsp2⟩, ht⟩, hf⟩, hint⟩ := hs
  have hquote : '"' ∉ s := by
    simp only [needsQuote, Bool.or_eq_false_iff] at hq
    have := hq.1.2
    simp_all
  have h1 : ¬(s.head? = some '"' ∧ s.getLast? = some '"' ∧ 2 ≤ s.length) := by
    rintro ⟨hh, -, -⟩
    cases s with
    | nil => simp at hh
    | cons a r =>
      simp only [List.head?_cons, Option.some.injEq] at hh
      exact hquote (hh ▸ List.mem_cons_self _ _)
  have h2 : s ≠ jstr "true" := by simp_all
  have h3 : s ≠ jstr "false" := by simp_all
  have h4 : parseIntChars s = none := by simp_all
  rw [classify, if_neg h1, if_neg h2, if_neg h3, h4]

theorem classify_quoted {s : JStr} (hbs : '\\' ∉ s) :
    classify ('"' :: (escapeQuotes s ++ ['"'])) = FmValue.str s := by
  have hshape : ('"' :: (escapeQuotes s ++ ['"'])) = ('"' :: escapeQuotes s) ++ ['"'] := rfl
  have hlast : ('"' :: (escapeQuotes s ++ ['"'])).getLast? = some '"' := by
    rw [hshape, List.getLast?_concat]
  have hlen : 2 ≤ ('"' :: (escapeQuotes s ++ ['"'])).length := by
    simp only [List.length_cons, List.length_append, List.length_singleton]
    omega
  rw [classify, if_pos ⟨rfl, hlast, hlen⟩]
  have hdrop : (('"' :: (escapeQuotes s ++ ['"'])).drop 1).dropLast = escapeQuotes s := by
    simp only [List.drop_one, List.tail_cons, List.dropLast_concat]
  rw [hdrop, unescape_escape hbs]

/-! ### The lines an entry contributes -/

/-- The scalar characters after the colon-space of a generated scalar line
(`none` for arrays). -/
def scalarChars : FmValue → Option JStr
  | FmValue.str s =>
    some (if needsQuote s then '"' :: (escapeQuotes s ++ ['"']) else s)
  | FmValue.num n => some (intChars n)
  | FmValue.bool b => some (if b then jstr "true" else jstr "false")
  | FmValue.arr _ => none

/-- The lines an entry contributes to the generated block. -/
def entryLines : JStr × FmValue → List JStr
  | (k, FmValue.str s) =>
    [k ++ jstr ": " ++ (if needsQuote s then '"' :: (escapeQuotes s ++ ['"']) else s)]
  | (k, FmValue.num n) => [k ++ jstr ": " ++ intChars n]
  | (k, FmValue.bool b) => [k ++ jstr ": " ++ (if b then jstr "true" else jstr "false")]
  | (_, FmValue.arr []) => []
  | (k, FmValue.arr xs) => (k ++ [':']) :: xs.map (fun v => jstr "  - " ++ v)

theorem isDigitCh_ne_newline {c : Char} (h : isDigitCh c = true) : c ≠ '\n' := by
  intro hc
  subst hc
  simp [isDigitCh] at h

theorem dateLike_chars {s : JStr} (h : dateLike s = true) :
    ∀ c ∈ s, isDigitCh c = true ∨ c = '-' := by
  unfold dateLike at h
  split at h
  · rename_i a b c d x1 e f x2 g i
    simp only [Bool.and_eq_true, beq_iff_eq] at h
    obtain ⟨⟨⟨⟨⟨⟨⟨⟨⟨ha, hb⟩, hc⟩, hd⟩, hx1⟩, he⟩, hf⟩, hx2⟩, hg⟩, hi⟩ := h
    intro x hx
    simp only [List.mem_cons, List.not_mem_nil, or_false] at hx
    rcases hx with rfl | rfl | rfl | rfl | rfl | rfl | rfl | rfl | rfl | rfl <;>
      first
      | exact Or.inl (by assumption)
      | exact Or.inr (by assumption)
  · exact absurd h (by simp)

theorem not_mem_of_all_digit_dash {s : JStr}
    (h : ∀ c ∈ s, isDigitCh c = true ∨ c = '-')
    (x : Char) (hx1 : isDigitCh x = false) (hx2 : x ≠ '-') : x ∉ s := by
  intro hm
  rcases h x hm with hd | hd
  · rw [hd] at hx1
    exact Bool.noConfusion hx1
  · exact hx2 hd

theorem dateLike_not_needsQuote {s : JStr} (h : dateLike s = true) :
    needsQuote s = false := by
  have hch := dateLike_chars h
  have h1 := not_mem_of_all_digit_dash hch ':' (by decide) (by decide)
  have h2 := not_mem_of_all_digit_dash hch '#' (by decide) (by decide)
  have h3 := not_mem_of_all_digit_dash hch '"' (by decide) (by decide)
  have h4 := not_mem_of_all_digit_dash hch '\'' (by decide) (by decide)
  simp only [needsQuote, Bool.or_eq_false_iff]
  refine ⟨⟨⟨?_, ?_⟩, ?_⟩, ?_⟩ <;> simp_all

theorem entryToYaml_scalar {k : JStr} {v : FmValue} {sc : JStr}
    (h : scalarChars v = some sc) :
    entryToYaml (k, v) = some (k ++ jstr ": " ++ sc)
    ∧ entryLines (k, v) = [k ++ jstr ": " ++ sc] := by
  cases v with
  | str s =>
    rw [scalarChars] at h
    injection h with h
    subst h
    refine ⟨?_, rfl⟩
    rw [entryToYaml]
    by_cases hd : dateLike s = true
    · rw [if_pos hd, dateLike_not_needsQuote hd]
      simp
    · rw [if_neg hd]
      by_cases hq : needsQuote s = true
      · rw [if_pos hq, hq]
        simp
      · rw [if_neg hq]
        simp only [Bool.not_eq_true] at hq
        rw [hq]
        simp
  | num n =>
    rw [scalarChars] at h
    injection h with h
    subst h
    exact ⟨rfl, rfl⟩
  | bool b =>
    rw [scalarChars] at h
    injection h with h
    subst h
    exact ⟨rfl, rfl⟩
  | arr xs =>
    rw [scalarChars] at h
    exact Option.noConfusion h

theorem joinNL_cons (x : JStr) (ls : List JStr) :
    joinNL (x :: ls) = x ++ (if ls.isEmpty then [] else '\n' :: joinNL ls) := by
  cases ls with
  | nil => simp [joinNL]
  | cons y r => simp [joinNL]

theorem entryToYaml_arr_cons (k : JStr) (x : JStr) (xs : List JStr) :
    entryToYaml (k, FmValue.arr (x :: xs))
      = some (joinNL (entryLines (k, FmValue.arr (x :: xs)))) := by
  have hne : ¬((x :: xs).isEmpty = true) := by
    rw [show (x :: xs).isEmpty = false from rfl]
    exact Bool.false_ne_true
  rw [entryToYaml, if_neg hne]
  rw [entryLines]
  · rw [joinNL_cons,
      show ((x :: xs).map (fun v => jstr "  - " ++ v)).isEmpty = false from rfl]
    simp [jstr, List.append_assoc]
  · intro hcon
    exact List.noConfusion hcon

/-! ### Safe-predicate destructuring -/

theorem safeKey_spec {k : JStr} (h : safeKey k = true) :
    k ≠ [] ∧ ':' ∉ k ∧ '\n' ∉ k ∧ k.head? ≠ some ' ' := by
  simp only [safeKey, Bool.and_eq_true] at h
  obtain ⟨⟨⟨⟨⟨⟨h1, h2⟩, h3⟩, h4⟩, h5⟩, h6⟩, h7⟩ := h
  exact ⟨by simp_all, by simp_all, by simp_all, by simp_all⟩

theorem safeScalarStr_spec {s : JStr} (h : safeScalarStr s = true) :
    s ≠ [] ∧ '\n' ∉ s ∧ '\\' ∉ s
    ∧ s ≠ jstr "true" ∧ s ≠ jstr "false" ∧ parseIntChars s = none := by
  simp only [safeScalarStr, Bool.and_eq_true] at h
  obtain ⟨⟨⟨⟨⟨⟨⟨h1, h2⟩, h3⟩, h4⟩, h5⟩, h6⟩, h7⟩, h8⟩ := h
  exact ⟨by simp_all, by simp_all, by simp_all, by simp_all, by simp_all, by simp_all⟩

theorem safeItem_no_newline {v : JStr} (h : safeItem v = true) : '\n' ∉ v := by
  simp only [safeItem, Bool.and_eq_true] at h
  obtain ⟨⟨⟨⟨⟨⟨⟨⟨⟨⟨h1, h2⟩, h3⟩, h4⟩, h5⟩, h6⟩, h7⟩, h8⟩, h9⟩, h10⟩, h11⟩ := h
  simp_all

/-! ### Each generated line is newline-free, so line splitting recovers it -/

theorem scalarChars_no_newline {v : FmValue} {sc : JStr}
    (h : scalarChars v = some sc)
    (hstr : ∀ s, v = FmValue.str s → safeScalarStr s = true) : '\n' ∉ sc := by
  cases v with
  | str s =>
    obtain ⟨-, hnl, -, -, -, -⟩ := safeScalarStr_spec (hstr s rfl)
    rw [scalarChars] at h
    injection h with h
    subst h
    by_cases hq : needsQuote s = true
    · rw [if_pos hq]
      intro hm
      rcases List.mem_cons.mp hm with hm | hm
      · exact absurd hm.symm (by decide)
      · rcases List.mem_append.mp hm with hm | hm
        · rcases escapeQuotes_mem hm with hm | hm | hm
          · exact hnl hm
          · exact absurd hm (by decide)
          · exact absurd hm (by decide)
        · simp only [List.mem_singleton] at hm
          exact absurd hm (by decide)
    · rw [if_neg hq]
      exact hnl
  | num n =>
    rw [scalarChars] at h
    injection h with h
    subst h
    intro hm
    rw [intChars] at hm
    by_cases hneg : n < 0
    · rw [if_pos hneg] at hm
      rcases List.mem_cons.mp hm with hm | hm
      · exact absurd hm.symm (by decide)
      · exact isDigitCh_ne_newline (natChars_all_digits _ _ hm) rfl
    · rw [if_neg hneg] at hm
      exact isDigitCh_ne_newline (natChars_all_digits _ _ hm) rfl
  | bool b =>
    rw [scalarChars] at h
    injection h with h
    subst h
    cases b <;> simp [jstr]
  | arr xs =>
    rw [scalarChars] at h
    exact Option.noConfusion h

theorem splitLines_joinNL {ls : List JStr} (hne : ls ≠ [])
    (h : ∀ l ∈ ls, ∀ c ∈ l, c ≠ '\n') : splitLines (joinNL ls) = ls := by
  induction ls with
  | nil => exact absurd rfl hne
  | cons x r ih =>
    cases r with
    | nil =>
      have hj : joinNL [x] = x := rfl
      rw [hj]
      exact splitLines_no_newline (h x (by simp))
    | cons y t =>
      have hj : joinNL (x :: y :: t) = x ++ '\n' :: joinNL (y :: t) := rfl
      rw [hj, splitLines_append, splitLines_no_newline (h x (by simp)),
        ih (by simp) (fun l hl => h l (by simp [hl]))]
      rfl

theorem splitLines_entry {e : JStr × FmValue} {y : JStr}
    (hs : safeEntry e = true) (h : entryToYaml e = some y) :
    splitLines y = entryLines e := by
  obtain ⟨k, v⟩ := e
  cases v with
  | arr xs =>
    cases xs with
    | nil => exact absurd h (by simp [entryToYaml])
    | cons x r =>
      have hy := entryToYaml_arr_cons k x r
      rw [h] at hy
      injection hy with hy
      subst hy
      rw [entryLines] at *
      · apply splitLines_joinNL (by simp)
        intro l hl c hc hcn
        subst hcn
        have hsk : safeKey k = true ∧ (x :: r).all safeItem = true := by
          simpa only [safeEntry, Bool.and_eq_true] using hs
        rcases List.mem_cons.mp hl with hl | hl
        · subst hl
          rcases List.mem_append.mp hc with hc | hc
          · exact (safeKey_spec hsk.1).2.2.1 hc
          · simp only [List.mem_singleton] at hc
            exact absurd hc (by decide)
        · simp only [List.mem_map] at hl
          obtain ⟨it, hit, hitl⟩ := hl
          subst hitl
          rcases List.mem_append.mp hc with hc | hc
          · exact absurd hc (by decide)
          · have hsafeIt : safeItem it = true :=
              List.all_eq_true.mp hsk.2 it hit
            exact safeItem_no_newline hsafeIt hc
      · intro hcon
        exact List.noConfusion hcon
      · intro hcon
        exact List.noConfusion hcon
  | str s =>
    have hsk : safeKey k = true ∧ safeScalarStr s = true := by
      simpa only [safeEntry, Bool.and_eq_true] using hs
    obtain ⟨hy, hl⟩ := entryToYaml_scalar (k := k) (v := FmValue.str s) rfl
    rw [h] at hy
    injection hy with hy
    subst hy
    rw [hl]
    apply splitLines_no_newline
    intro c hc hcn
    subst hcn
    rcases List.mem_append.mp hc with hc | hc
    · rcases List.mem_append.mp hc with hc | hc
      · exact (safeKey_spec hsk.1).2.2.1 hc
      · exact absurd hc (by decide)
    · exact scalarChars_no_newline (v := FmValue.str s) rfl
        (fun s' hs' => by cases hs'; exact hsk.2) hc
  | num n =>
    have hsk : safeKey k = true := by
      simpa only [safeEntry] using hs
    obtain ⟨hy, hl⟩ := entryToYaml_scalar (k := k) (v := FmValue.num n) rfl
    rw [h] at hy
    injection hy with hy
    subst hy
    rw [hl]
    apply splitLines_no_newline
    intro c hc hcn
    subst hcn
    rcases List.mem_append.mp hc with hc | hc
    · rcases List.mem_append.mp hc with hc | hc
      · exact (safeKey_spec hsk).2.2.1 hc
      · exact absurd hc (by decide)
    · exact scalarChars_no_newline (v := FmValue.num n) rfl
        (fun s' hs' => FmValue.noConfusion hs') hc
  | bool b =>
    have hsk : safeKey k = true := by
      simpa only [safeEntry] using hs
    obtain ⟨hy, hl⟩ := entryToYaml_scalar (k := k) (v := FmValue.bool b) rfl
    rw [h] at hy
    injection hy with hy
    subst hy
    rw [hl]
    apply splitLines_no_newline
    intro c hc hcn
    subst hcn
    rcases List.mem_append.mp hc with hc | hc
    · rcases List.mem_append.mp hc with hc | hc
      · exact (safeKey_spec hsk).2.2.1 hc
      · exact absurd hc (by decide)
    · exact scalarChars_no_newline (v := FmValue.bool b) rfl
        (fun s' hs' => FmValue.noConfusion hs') hc

theorem entryLines_eq_nil_of_none {e : JStr × FmValue}
    (h : entryToYaml e = none) : entryLines e = [] := by
  have he := (entryToYaml_eq_none_iff e).mp h
  obtain ⟨k, v⟩ := e
  cases v with
  | str s => simp [isEmptyArr] at he
  | num n => simp [isEmptyArr] at he
  | bool b => simp [isEmptyArr] at he
  | arr xs =>
    cases xs with
    | nil => rfl
    | cons x r => simp [isEmptyArr] at he

theorem flatMap_entryLines_eq_nil {fm : List (JStr × FmValue)}
    (h : fm.filterMap entryToYaml = []) : fm.flatMap entryLines = [] := by
  induction fm with
  | nil => rfl
  | cons e r ih =>
    rw [List.filterMap_cons] at h
    cases he : entryToYaml e with
    | none =>
      rw [he] at h
      rw [List.flatMap_cons, entryLines_eq_nil_of_none he, List.nil_append]
      exact ih h
    | some y =>
      rw [he] at h
      exact List.noConfusion h

theorem splitLines_frontmatterToYaml {fm : List (JStr × FmValue)}
    (hsafe : ∀ e ∈ fm, safeEntry e = true)
    (hne : fm.filterMap entryToYaml ≠ []) :
    splitLines (frontmatterToYaml fm) = fm.flatMap entryLines := by
  induction fm with
  | nil => exact absurd rfl hne
  | cons e rest ih =>
    cases he : entryToYaml e with
    | none =>
      rw [frontmatterToYaml, List.filterMap_cons, he]
      rw [List.filterMap_cons, he] at hne
      rw [List.flatMap_cons, entryLines_eq_nil_of_none he, List.nil_append]
      exact ih (fun x hx => hsafe x (by simp [hx])) hne
    | some y =>
      rw [frontmatterToYaml, List.filterMap_cons, he]
      rw [List.flatMap_cons]
      cases hfr : rest.filterMap entryToYaml with
      | nil =>
        show splitLines (joinNL [y]) = entryLines e ++ rest.flatMap entryLines
        have hj : joinNL [y] = y := rfl
        rw [hj, splitLines_entry (hsafe e (by simp)) he,
          flatMap_entryLines_eq_nil hfr, List.append_nil]
      | cons z w =>
        show splitLines (joinNL (y :: z :: w)) = entryLines e ++ rest.flatMap entryLines
        have hj : joinNL (y :: z :: w) = y ++ '\n' :: joinNL (z :: w) := rfl
        rw [hj, splitLines_append, splitLines_entry (hsafe e (by simp)) he]
        have ihr := ih (fun x hx => hsafe x (by simp [hx])) (by simp [hfr])
        rw [frontmatterToYaml, hfr] at ihr
        rw [ihr]

/-! ### Parsing the generated lines -/

theorem isItemLine_of_item (x : JStr) : isItemLine (jstr "  - " ++ x) = true := by
  rw [isItemLine, List.isPrefixOf_iff_prefix]
  exact List.prefix_append _ _

theorem safeKey_head {k : JStr} (h : safeKey k = true) :
    ∃ c, k.head? = some c ∧ c ≠ ' ' := by
  obtain ⟨hne, -, -, hsp⟩ := safeKey_spec h
  cases k with
  | nil => exact absurd rfl hne
  | cons a r =>
    refine ⟨a, rfl, fun he => hsp ?_⟩
    rw [he]
    rfl

theorem isItemLine_false_of_head {l : JStr} {c : Char} (h : l.head? = some c)
    (hc : c ≠ ' ') : isItemLine l = false := by
  cases l with
  | nil => simp at h
  | cons a r =>
    simp only [List.head?_cons, Option.some.injEq] at h
    subst h
    simp only [isItemLine, jstr]
    rw [show ("  - ".toList) = ' ' :: " - ".toList from rfl, List.isPrefixOf]
    simp only [Bool.and_eq_false_iff]
    left
    simp [Ne.symm hc]

theorem head_key_not_item {k m : JStr} (hk : safeKey k = true) :
    isItemLine (k ++ m) = false := by
  obtain ⟨c, hc, hcs⟩ := safeKey_head hk
  apply isItemLine_false_of_head _ hcs
  rw [List.head?_append_of_ne_nil _ (safeKey_spec hk).1]
  exact hc

theorem flatMap_entryLines_head_not_item {fm : List (JStr × FmValue)}
    (hsafe : ∀ e ∈ fm, safeEntry e = true) :
    ∀ l, (fm.flatMap entryLines).head? = some l → isItemLine l = false := by
  induction fm with
  | nil => intro l hl; simp at hl
  | cons e rest ih =>
    intro l hl
    rw [List.flatMap_cons] at hl
    have hse := hsafe e (by simp)
    obtain ⟨k, v⟩ := e
    cases v with
    | str s =>
      have h2 : (safeKey k && safeScalarStr s) = true := hse
      have hk : safeKey k = true := ((Bool.and_eq_true _ _).mp h2).1
      rw [entryLines, List.cons_append] at hl
      simp only [List.head?_cons, Option.some.injEq] at hl
      subst hl
      rw [List.append_assoc]
      exact head_key_not_item hk
    | num n =>
      have hk : safeKey k = true := hse
      rw [entryLines, List.cons_append] at hl
      simp only [List.head?_cons, Option.some.injEq] at hl
      subst hl
      rw [List.append_assoc]
      exact head_key_not_item hk
    | bool b =>
      have hk : safeKey k = true := hse
      rw [entryLines, List.cons_append] at hl
      simp only [List.head?_cons, Option.some.injEq] at hl
      subst hl
      rw [List.append_assoc]
      exact head_key_not_item hk
    | arr xs =>
      have h2 : (safeKey k && xs.all safeItem) = true := hse
      have hk : safeKey k = true := ((Bool.and_eq_true _ _).mp h2).1
      cases xs with
      | nil =>
        rw [show entryLines (k, FmValue.arr []) = [] from rfl,
          List.nil_append] at hl
        exact ih (fun x hx => hsafe x (by simp [hx])) l hl
      | cons x r =>
        rw [entryLines] at hl
        · rw [List.cons_append] at hl
          simp only [List.head?_cons, Option.some.injEq] at hl
          subst hl
          exact head_key_not_item hk
        · intro hcon
          exact List.noConfusion hcon

theorem parseLines_scalar_step {k sc : JStr} {rest : List JStr}
    {entries : List (JStr × FmValue)}
    (hk : safeKey k = true) (h : parseLines rest = some entries) :
    parseLines ((k ++ jstr ": " ++ sc) :: rest)
      = some ((k, classify sc) :: entries) := by
  obtain ⟨hkne, hkc, -, -⟩ := safeKey_spec hk
  have hni : isItemLine (k ++ jstr ": " ++ sc) = false := by
    rw [List.append_assoc]
    exact head_key_not_item hk
  have hfc : findColon (k ++ jstr ": " ++ sc) = some (k, ' ' :: sc) := by
    have hshape : k ++ jstr ": " ++ sc = k ++ ':' :: (' ' :: sc) := by
      simp [jstr, List.append_assoc]
    rw [hshape]
    exact findColon_append _ (fun x hx heq => hkc (heq ▸ hx))
  simp only [parseLines, hni, hfc, h, Bool.false_eq_true, if_false]

theorem map_drop_items (xs : List JStr) :
    (xs.map (fun v => jstr "  - " ++ v)).map (fun l => l.drop 4) = xs := by
  induction xs with
  | nil => rfl
  | cons x r ih =>
    have hd : List.drop 4 (jstr "  - " ++ x) = x := by
      have hdl := List.drop_left (jstr "  - ") x
      rwa [show (jstr "  - ").length = 4 from rfl] at hdl
    simp only [List.map_cons, hd, ih]

theorem parseLines_arr_step {k : JStr} {xs : List JStr} {rest : List JStr}
    {entries : List (JStr × FmValue)}
    (hk : safeKey k = true) (h : parseLines rest = some entries)
    (hrest : ∀ l, rest.head? = some l → isItemLine l = false) :
    parseLines ((k ++ [':']) :: (xs.map (fun v => jstr "  - " ++ v) ++ rest))
      = some ((k, FmValue.arr xs) :: entries) := by
  obtain ⟨hkne, hkc, -, -⟩ := safeKey_spec hk
  have hni : isItemLine (k ++ [':']) = false := head_key_not_item hk
  have hfc : findColon (k ++ [':']) = some (k, []) := by
    have hshape : k ++ [':'] = k ++ ':' :: ([] : JStr) := rfl
    rw [hshape]
    exact findColon_append _ (fun x hx heq => hkc (heq ▸ hx))
  obtain ⟨htake, hdrop⟩ := takeWhile_append_of_all
    (a := xs.map (fun v => jstr "  - " ++ v)) (b := rest)
    (fun x hx => by
      simp only [List.mem_map] at hx
      obtain ⟨v, -, hv⟩ := hx
      exact hv ▸ isItemLine_of_item v)
    hrest
  simp only [parseLines, hni, hfc, htake, hdrop, h, map_drop_items,
    Bool.false_eq_true, if_false]

theorem parseLines_flatMap {fm : List (JStr × FmValue)}
    (hsafe : ∀ e ∈ fm, safeEntry e = true) :
    parseLines (fm.flatMap entryLines)
      = some (fm.filter (fun e => !(isEmptyArr e))) := by
  induction fm with
  | nil =>
    rw [show ([] : List (JStr × FmValue)).flatMap entryLines = ([] : List JStr)
      from rfl, parseLines]
    rfl
  | cons e rest ih =>
    have ihr := ih (fun x hx => hsafe x (by simp [hx]))
    have hse := hsafe e (by simp)
    obtain ⟨k, v⟩ := e
    rw [List.flatMap_cons]
    cases v with
    | str s =>
      have h2 : (safeKey k && safeScalarStr s) = true := hse
      have hk := ((Bool.and_eq_true _ _).mp h2).1
      have hss := ((Bool.and_eq_true _ _).mp h2).2
      have hcl : classify (if needsQuote s then '"' :: (escapeQuotes s ++ ['"'])
          else s) = FmValue.str s := by
        by_cases hq : needsQuote s = true
        · rw [if_pos hq]
          exact classify_quoted (safeScalarStr_spec hss).2.2.1
        · rw [if_neg hq]
          exact classify_plain hss (by simpa using hq)
      rw [entryLines, List.singleton_append, parseLines_scalar_step hk ihr, hcl,
        List.filter_cons, if_pos (by rfl)]
    | num n =>
      have hk : safeKey k = true := hse
      rw [entryLines, List.singleton_append, parseLines_scalar_step hk ihr,
        classify_intChars, List.filter_cons, if_pos (by rfl)]
    | bool b =>
      have hk : safeKey k = true := hse
      have hcl : classify (if b then jstr "true" else jstr "false")
          = FmValue.bool b := by
        cases b
        · rw [if_neg (by simp)]
          exact classify_false
        · rw [if_pos rfl]
          exact classify_true
      rw [entryLines, List.singleton_append, parseLines_scalar_step hk ihr, hcl,
        List.filter_cons, if_pos (by rfl)]
    | arr xs =>
      have h2 : (safeKey k && xs.all safeItem) = true := hse
      have hk := ((Bool.and_eq_true _ _).mp h2).1
      cases xs with
      | nil =>
        rw [show entryLines (k, FmValue.arr []) = [] from rfl, List.nil_append,
          List.filter_cons, if_neg (by simp [isEmptyArr])]
        exact ihr
      | cons x r =>
        rw [entryLines]
        · rw [List.cons_append,
            parseLines_arr_step hk ihr
              (flatMap_entryLines_head_not_item (fun y hy => hsafe y (by simp [hy]))),
            List.filter_cons, if_pos (by rfl)]
        · intro hcon
          exact List.noConfusion hcon

/-! ### The front-matter round trip -/

theorem entryToYaml_some_ne_nil {e : JStr × FmValue} {y : JStr}
    (hs : safeEntry e = true) (h : entryToYaml e = some y) : y ≠ [] := by
  obtain ⟨k, v⟩ := e
  have hkne : k ≠ [] := by
    cases v with
    | str s =>
      have h2 : (safeKey k && safeScalarStr s) = true := hs
      exact (safeKey_spec ((Bool.and_eq_true _ _).mp h2).1).1
    | num n => exact (safeKey_spec hs).1
    | bool b => exact (safeKey_spec hs).1
    | arr xs =>
      have h2 : (safeKey k && xs.all safeItem) = true := hs
      exact (safeKey_spec ((Bool.and_eq_true _ _).mp h2).1).1
  cases v with
  | str s =>
    obtain ⟨hy, -⟩ := entryToYaml_scalar (k := k) (v := FmValue.str s) rfl
    rw [h] at hy
    injection hy with hy
    subst hy
    cases k with
    | nil => exact absurd rfl hkne
    | cons a r => simp
  | num n =>
    obtain ⟨hy, -⟩ := entryToYaml_scalar (k := k) (v := FmValue.num n) rfl
    rw [h] at hy
    injection hy with hy
    subst hy
    cases k with
    | nil => exact absurd rfl hkne
    | cons a r => simp
  | bool b =>
    obtain ⟨hy, -⟩ := entryToYaml_scalar (k := k) (v := FmValue.bool b) rfl
    rw [h] at hy
    injection hy with hy
    subst hy
    cases k with
    | nil => exact absurd rfl hkne
    | cons a r => simp
  | arr xs =>
    cases xs with
    | nil => exact absurd h (by simp [entryToYaml])
    | cons x r =>
      have hy := entryToYaml_arr_cons k x r
      rw [h] at hy
      injection hy with hy
      subst hy
      rw [entryLines]
      · have hj : joinNL ((k ++ [':'])
            :: (x :: r).map (fun v => jstr "  - " ++ v))
            = (k ++ [':']) ++ '\n' :: joinNL ((x :: r).map (fun v => jstr "  - " ++ v)) := rfl
        rw [hj]
        cases k with
        | nil => simp
        | cons a q => simp
      · intro hcon
        exact List.noConfusion hcon

theorem joinNL_eq_nil {ps : List JStr} (hne : ∀ p ∈ ps, p ≠ [])
    (h : joinNL ps = []) : ps = [] := by
  cases ps with
  | nil => rfl
  | cons x r =>
    cases r with
    | nil => exact absurd h (hne x (by simp))
    | cons y t =>
      have hj : joinNL (x :: y :: t) = x ++ '\n' :: joinNL (y :: t) := rfl
      rw [hj] at h
      exact absurd h (by simp)

theorem filter_eq_nil_of_filterMap_nil {fm : List (JStr × FmValue)}
    (h : fm.filterMap entryToYaml = []) :
    fm.filter (fun e => !(isEmptyArr e)) = [] := by
  induction fm with
  | nil => rfl
  | cons e rest ih =>
    rw [List.filterMap_cons] at h
    cases he : entryToYaml e with
    | none =>
      rw [he] at h
      rw [List.filter_cons,
        if_neg (by simp [(entryToYaml_eq_none_iff e).mp he])]
      exact ih h
    | some y =>
      rw [he] at h
      exact List.noConfusion h

/-- C5 is false as stated: submitting the front matter whose single entry
maps the key `tags` to the empty array produces a file whose front-matter
block is empty, so parsing it cannot reproduce the submitted object. -/
theorem frontmatter_roundtrip_counterexample :
    parseYaml (frontmatterToYaml [(jstr "tags", FmValue.arr [])])
      ≠ some [(jstr "tags", FmValue.arr [])] := by decide

/-- C5 (amended): for every submitted front-matter object whose entries are
`safeEntry` (well-formed keys; string values and array items that a YAML
reader returns verbatim), parsing the generated front-matter block yields
exactly the submitted object with its empty-array entries removed. -/
theorem create_frontmatter_roundtrip (fm : List (JStr × FmValue))
    (hsafe : ∀ e ∈ fm, safeEntry e = true) :
    parseYaml (frontmatterToYaml fm)
      = some (fm.filter (fun e => !(isEmptyArr e))) := by
  rw [parseYaml]
  by_cases hy : frontmatterToYaml fm = []
  · rw [if_pos hy]
    rw [frontmatterToYaml] at hy
    have hfm : fm.filterMap entryToYaml = [] := by
      apply joinNL_eq_nil _ hy
      intro p hp
      rw [List.mem_filterMap] at hp
      obtain ⟨e, hmem, he⟩ := hp
      exact entryToYaml_some_ne_nil (hsafe e hmem) he
    rw [filter_eq_nil_of_filterMap_nil hfm]
  · rw [if_neg hy]
    have hne : fm.filterMap entryToYaml ≠ [] := by
      intro hcon
      rw [frontmatterToYaml, hcon] at hy
      exact hy rfl
    rw [splitLines_frontmatterToYaml hsafe hne, parseLines_flatMap hsafe]

/-- Witness for the amended C5 at a concrete front matter: all hypotheses
hold by evaluation, and the round trip drops exactly the empty-array
entry. -/
theorem create_frontmatter_roundtrip_witness :
    (∀ e ∈ [(jstr "title", FmValue.str (jstr "My Book: A Tale")),
            (jstr "rating", FmValue.num 5),
            (jstr "draft", FmValue.bool false),
            (jstr "tags", FmValue.arr [jstr "fiction", jstr "fun stuff"]),
            (jstr "empty", FmValue.arr [])], safeEntry e = true)
    ∧ parseYaml (frontmatterToYaml
        [(jstr "title", FmValue.str (jstr "My Book: A Tale")),
         (jstr "rating", FmValue.num 5),
         (jstr "draft", FmValue.bool false),
         (jstr "tags", FmValue.arr [jstr "fiction", jstr "fun stuff"]),
         (jstr "empty", FmValue.arr [])])
      = some [(jstr "title", FmValue.str (jstr "My Book: A Tale")),
              (jstr "rating", FmValue.num 5),
              (jstr "draft", FmValue.bool false),
              (jstr "tags", FmValue.arr [jstr "fiction", jstr "fun stuff"])] := by
  refine ⟨by decide, ?_⟩
  rw [create_frontmatter_roundtrip _ (by decide)]
  decide

/-! ## POSIX paths: `path.resolve` and `path.basename`

`process.cwd()` is always an absolute path, so `path.resolve(base, p)`
behaves as: if `p` is absolute normalize `p`, otherwise normalize
`base + '/' + p`.  Normalization splits at slashes, drops empty and `.`
segments, and lets `..` pop the previous segment (staying at the root). -/

/-- Split a character list at `/` (like `splitLines` at newlines). -/
def splitSlash : JStr → List JStr
  | [] => [[]]
  | c :: rest =>
    if c = '/' then [] :: splitSlash rest
    else
      match splitSlash rest with
      | [] => [[c]]
      | l :: ls => (c :: l) :: ls

/-- POSIX segment normalization: drop empty and `.`, let `..` pop. -/
def normSegs (segs : List JStr) : List JStr :=
  segs.foldl
    (fun acc s =>
      if s = [] ∨ s = jstr "." then acc
      else if s = jstr ".." then acc.dropLast
      else acc ++ [s])
    []

/-- The absolute path with the given segments (the root for none). -/
def pathOfSegs (segs : List JStr) : JStr :=
  if segs.isEmpty then ['/']
  else segs.foldl (fun acc s => acc ++ '/' :: s) []

/-- `path.resolve(base, p)` for an absolute `base`. -/
def resolvePath (base p : JStr) : JStr :=
  let full := if p.head? = some '/' then p else base ++ '/' :: p
  pathOfSegs (normSegs (splitSlash full))

/-- `path.basename`: strip trailing slashes, then take the last segment. -/
def basename (p : JStr) : JStr :=
  ((p.reverse.dropWhile (fun c => c == '/')).takeWhile (fun c => !(c == '/'))).reverse

/-! ## The filesystem and the request model -/

/-- A filesystem entry: a regular file with its content, or a directory. -/
inductive FsEntry where
  | file (content : JStr)
  | dir
deriving DecidableEq, Repr

/-- The filesystem: an association list from absolute path to entry. -/
abbrev Fs := List (JStr × FsEntry)

/-- Look a path up. -/
def Fs.lookup : Fs → JStr → Option FsEntry
  | [], _ => none
  | (p, e) :: rest, q => if p = q then some e else Fs.lookup rest q

/-- `fs.existsSync`. -/
def Fs.existsSync (fs : Fs) (p : JStr) : Bool := (Fs.lookup fs p).isSome

/-- A filesystem effect a handler performs. -/
inductive Effect where
  | write (path content : JStr)
  | unlink (path : JStr)
deriving DecidableEq, Repr

/-- A JSON value (numbers restricted to integers; floating point is
outside the model). -/
inductive Json where
  | null
  | bool (b : Bool)
  | num (n : Int)
  | str (s : JStr)
  | arr (xs : List Json)
  | obj (members : List (JStr × Json))
deriving Repr

/-- The parsed request body.  `malformed` stands for a body that
`JSON.parse` rejects or whose destructured fields are missing, so that
using them throws and the handler's catch answers 500. -/
inductive ReqBody where
  | malformed
  | save (filePath content : JStr)
  | create (collection slug : JStr) (frontmatter : List (JStr × FmValue)) (body : JStr)
  | upload (filename : JStr) (mime : Option JStr) (data : JStr)
  | del (path : JStr)
  | json (v : Json)
  | convert

/-- A request as the dev-editor middleware sees it: the URL path (query
already stripped), the HTTP method, the body, and whether the filesystem
and image-library calls of this request succeed (`ioOk = false` means the
first such call throws). -/
structure Request where
  url : JStr
  method : JStr
  body : ReqBody
  ioOk : Bool

/-- A response body: the exact JSON text written, a runtime-dependent
error text `JSON.stringify({error: String(err)})`, or runtime-dependent
success data (directory listings, converted images). -/
inductive RespBody where
  | exact (b : JStr)
  | errText
  | data
deriving DecidableEq, Repr

/-- The response: the HTTP status (200 when the handler never sets
`statusCode`) and the body. -/
structure Response where
  status : Nat
  body : RespBody
deriving DecidableEq, Repr

def res200 (b : JStr) : Response := ⟨200, RespBody.exact b⟩
def resErr (code : Nat) (b : String) : Response := ⟨code, RespBody.exact (jstr b)⟩
def res500 : Response := ⟨500, RespBody.errText⟩

/-! ## The directories the integration resolves at setup -/

def contentDir (cwd : JStr) : JStr := resolvePath cwd (jstr "src/content")
def dataDir (cwd : JStr) : JStr := resolvePath cwd (jstr "src/data")
def galleryDir (cwd : JStr) : JStr := resolvePath cwd (jstr "public/gallery")
def galleryConfigPath (cwd : JStr) : JStr :=
  resolvePath (dataDir cwd) (jstr "gallery-config.json")
def memesDir (cwd : JStr) : JStr := resolvePath cwd (jstr "public/memes")
def memesConfigPath (cwd : JStr) : JStr :=
  resolvePath (dataDir cwd) (jstr "memes-config.json")

/-- The create handler's target file `contentDir/collection/slug.md`. -/
def createTargetPath (cwd collection safeSlug : JStr) : JStr :=
  resolvePath (resolvePath (contentDir cwd) collection) (safeSlug ++ jstr ".md")

/-! ## `JSON.stringify(v, null, 2)`

Modelled for the platform: two-space pretty printing; strings are emitted
between plain quotes (faithful for strings without quotes, backslashes or
control characters, which is the class the round-trip theorem assumes). -/

def spaces (n : Nat) : JStr := List.replicate n ' '

mutual

/-- Stringify a value whose enclosing indentation is `2*d` spaces. -/
def stringifyAt (d : Nat) : Json → JStr
  | Json.null => jstr "null"
  | Json.bool true => jstr "true"
  | Json.bool false => jstr "false"
  | Json.num n => intChars n
  | Json.str s => '"' :: (s ++ ['"'])
  | Json.arr [] => jstr "[]"
  | Json.arr (x :: xs) =>
    '[' :: '\n' :: (stringifyItems (d + 1) (x :: xs)
      ++ '\n' :: (spaces (2 * d) ++ [']']))
  | Json.obj [] => jstr "\x7b\x7d"
  | Json.obj (m :: ms) =>
    '\x7b' :: '\n' :: (stringifyMembers (d + 1) (m :: ms)
      ++ '\n' :: (spaces (2 * d) ++ ['\x7d']))

/-- Stringify array items, one per line at depth `d`, separated by commas. -/
def stringifyItems (d : Nat) : List Json → JStr
  | [] => []
  | [x] => spaces (2 * d) ++ stringifyAt d x
  | x :: xs =>
    spaces (2 * d) ++ stringifyAt d x ++ ',' :: '\n' :: stringifyItems d xs

/-- Stringify object members, one per line at depth `d`. -/
def stringifyMembers (d : Nat) : List (JStr × Json) → JStr
  | [] => []
  | [(k, v)] => spaces (2 * d) ++ '"' :: (k ++ jstr "\": ") ++ stringifyAt d v
  | (k, v) :: ms =>
    spaces (2 * d) ++ '"' :: (k ++ jstr "\": ") ++ stringifyAt d v
      ++ ',' :: '\n' :: stringifyMembers d ms

end

/-- `JSON.stringify(v, null, 2)`. -/
def jsonStringify (v : Json) : JStr := stringifyAt 0 v

/-! ## The endpoint handlers -/

def allowedImageTypes : List JStr :=
  [jstr "image/jpeg", jstr "image/png", jstr "image/webp", jstr "image/gif",
   jstr "image/heic", jstr "image/heif"]

def imageExts : List JStr :=
  [jstr ".jpg", jstr ".jpeg", jstr ".png", jstr ".webp", jstr ".gif",
   jstr ".heic", jstr ".heif"]

/-- The case-insensitive image-extension test of the upload handlers. -/
def hasImageExt (l : JStr) : Bool :=
  imageExts.any (fun e => e.isSuffixOf (l.map jsLower))

def allowedCollections : List JStr := [jstr "books", jstr "games", jstr "blog"]

/-- POST `/__dev-editor/save`. -/
def saveH (cwd : JStr) (ioOk : Bool) (filePath content : JStr) :
    Response × List Effect :=
  let absolutePath := resolvePath cwd filePath
  if !((contentDir cwd).isPrefixOf absolutePath) then
    (resErr 403 "\x7b\"error\":\"Can only edit content files\"\x7d", [])
  else if !ioOk then (res500, [])
  else (res200 (jstr "\x7b\"success\":true\x7d"), [Effect.write absolutePath content])

/-- POST `/__dev-editor/create`. -/
def createH (cwd : JStr) (fs : Fs) (ioOk : Bool) (collection slug : JStr)
    (frontmatter : List (JStr × FmValue)) (body : JStr) :
    Response × List Effect :=
  if !(allowedCollections.contains collection) then
    (⟨400, RespBody.exact (jstr "\x7b\"error\":\"Invalid collection: "
      ++ collection ++ jstr "\"\x7d")⟩, [])
  else
    let safeSlug := slugify slug
    if safeSlug.isEmpty then
      (resErr 400 "\x7b\"error\":\"Invalid slug\"\x7d", [])
    else
      let filePath := createTargetPath cwd collection safeSlug
      if Fs.existsSync fs filePath then
        (resErr 409 "\x7b\"error\":\"File already exists\"\x7d", [])
      else if !ioOk then (res500, [])
      else
        let markdownContent := jstr "---\n" ++ frontmatterToYaml frontmatter
          ++ jstr "\n---\n\n" ++ body
        (⟨200, RespBody.exact (jstr "\x7b\"success\":true,\"filePath\":\"src/content/"
          ++ collection ++ '/' :: safeSlug ++ jstr ".md\"\x7d")⟩,
         [Effect.write filePath markdownContent])

/-- POST `/__dev-editor/upload`. -/
def uploadH (cwd : JStr) (ioOk : Bool) (filename : JStr) (mime : Option JStr)
    (data : JStr) : Response × List Effect :=
  if (match mime with
      | some m => !(allowedImageTypes.contains m)
      | none => false) then
    (resErr 400 "\x7b\"error\":\"Invalid image type\"\x7d", [])
  else
    let safeFilename := sanitizeFilename filename
    if safeFilename.isEmpty || !(hasImageExt safeFilename) then
      (resErr 400 "\x7b\"error\":\"Invalid filename\"\x7d", [])
    else if !ioOk then (res500, [])
    else
      (⟨200, RespBody.exact (jstr "\x7b\"success\":true,\"path\":\"/gallery/"
        ++ safeFilename ++ jstr "\"\x7d")⟩,
       [Effect.write (resolvePath (galleryDir cwd) safeFilename) data])

/-- DELETE `/__dev-editor/delete`.  `unlink` removes regular files only: on
a directory it throws, so the catch answers 500 and nothing is removed. -/
def deleteH (cwd : JStr) (fs : Fs) (ioOk : Bool) (imagePath : JStr) :
    Response × List Effect :=
  if !((jstr "/gallery/").isPrefixOf imagePath) then
    (resErr 403 "\x7b\"error\":\"Can only delete gallery images\"\x7d", [])
  else
    let filename := basename imagePath
    let absolutePath := resolvePath (galleryDir cwd) filename
    if !((galleryDir cwd).isPrefixOf absolutePath) then
      (resErr 403 "\x7b\"error\":\"Invalid path\"\x7d", [])
    else
      match Fs.lookup fs absolutePath with
      | none => (resErr 404 "\x7b\"error\":\"File not found\"\x7d", [])
      | some FsEntry.dir => (res500, [])
      | some (FsEntry.file _) =>
        if !ioOk then (res500, [])
        else (res200 (jstr "\x7b\"success\":true\x7d"), [Effect.unlink absolutePath])

/-- POST `/__dev-editor/convert-heic`. -/
def convertH (ioOk : Bool) : Response × List Effect :=
  if !ioOk then (res500, []) else (⟨200, RespBody.data⟩, [])

/-- GET `/__dev-editor/list-images` and `/__dev-editor/list-memes`. -/
def listH (ioOk : Bool) : Response × List Effect :=
  if !ioOk then (res500, []) else (⟨200, RespBody.data⟩, [])

/-- GET of a config endpoint: echo the file verbatim if present. -/
def configGetH (fs : Fs) (configPath : JStr) : Response × List Effect :=
  match Fs.lookup fs configPath with
  | some (FsEntry.file content) => (res200 content, [])
  | some FsEntry.dir => (res500, [])
  | none => (res200 (jstr "\x7b\"images\":[]\x7d"), [])

/-- POST of a config endpoint: write the pretty-printed JSON. -/
def configPostH (configPath : JStr) (v : Json) : Response × List Effect :=
  (res200 (jstr "\x7b\"success\":true\x7d"),
   [Effect.write configPath (jsonStringify v)])

/-- DELETE `/__dev-editor/delete-meme` (same shape as `deleteH`). -/
def deleteMemeH (cwd : JStr) (fs : Fs) (ioOk : Bool) (imagePath : JStr) :
    Response × List Effect :=
  if !((jstr "/memes/").isPrefixOf imagePath) then
    (resErr 403 "\x7b\"error\":\"Can only delete meme images\"\x7d", [])
  else
    let filename := basename imagePath
    let absolutePath := resolvePath (memesDir cwd) filename
    if !((memesDir cwd).isPrefixOf absolutePath) then
      (resErr 403 "\x7b\"error\":\"Invalid path\"\x7d", [])
    else
      match Fs.lookup fs absolutePath with
      | none => (resErr 404 "\x7b\"error\":\"File not found\"\x7d", [])
      | some FsEntry.dir => (res500, [])
      | some (FsEntry.file _) =>
        if !ioOk then (res500, [])
        else (res200 (jstr "\x7b\"success\":true\x7d"), [Effect.unlink absolutePath])

/-- POST `/__dev-editor/upload-meme` (same shape as `uploadH`). -/
def uploadMemeH (cwd : JStr) (ioOk : Bool) (filename : JStr)
    (mime : Option JStr) (data : JStr) : Response × List Effect :=
  if (match mime with
      | some m => !(allowedImageTypes.contains m)
      | none => false) then
    (resErr 400 "\x7b\"error\":\"Invalid image type\"\x7d", [])
  else
    let safeFilename := sanitizeFilename filename
    if safeFilename.isEmpty || !(hasImageExt safeFilename) then
      (resErr 400 "\x7b\"error\":\"Invalid filename\"\x7d", [])
    else if !ioOk then (res500, [])
    else
      (⟨200, RespBody.exact (jstr "\x7b\"success\":true,\"path\":\"/memes/"
        ++ safeFilename ++ jstr "\"\x7d")⟩,
       [Effect.write (resolvePath (memesDir cwd) safeFilename) data])

/-- The `Unknown endpoint` answer of the dispatcher's last lines. -/
def unknownResp : Response × List Effect :=
  (⟨404, RespBody.exact (jstr "\x7b\"error\":\"Unknown endpoint\"\x7d")⟩, [])

/-- The request dispatcher: the chain of URL-and-method tests of the
middleware.  A body that does not destructure into the fields an endpoint
reads makes that endpoint throw on use, so it answers 500.  For the two
config URLs an unmatched method falls out of the source's `if` block past
every later test (no later test shares the URL) into the unknown-endpoint
answer; the `mkdir` those blocks run before checking the method is covered
by `ioOk`. -/
def dispatch (cwd : JStr) (fs : Fs) (req : Request) : Response × List Effect :=
  if req.url = jstr "/__dev-editor/save" ∧ req.method = jstr "POST" then
    match req.body with
    | ReqBody.save filePath content => saveH cwd req.ioOk filePath content
    | _ => (res500, [])
  else if req.url = jstr "/__dev-editor/create" ∧ req.method = jstr "POST" then
    match req.body with
    | ReqBody.create c s f b => createH cwd fs req.ioOk c s f b
    | _ => (res500, [])
  else if req.url = jstr "/__dev-editor/upload" ∧ req.method = jstr "POST" then
    match req.body with
    | ReqBody.upload fn m d => uploadH cwd req.ioOk fn m d
    | _ => (res500, [])
  else if req.url = jstr "/__dev-editor/delete" ∧ req.method = jstr "DELETE" then
    match req.body with
    | ReqBody.del p => deleteH cwd fs req.ioOk p
    | _ => (res500, [])
  else if req.url = jstr "/__dev-editor/convert-heic" ∧ req.method = jstr "POST" then
    match req.body with
    | ReqBody.convert => convertH req.ioOk
    | _ => (res500, [])
  else if req.url = jstr "/__dev-editor/list-images" ∧ req.method = jstr "GET" then
    listH req.ioOk
  else if req.url = jstr "/__dev-editor/gallery" then
    if !req.ioOk then (res500, [])
    else if req.method = jstr "GET" then configGetH fs (galleryConfigPath cwd)
    else if req.method = jstr "POST" then
      match req.body with
      | ReqBody.json v => configPostH (galleryConfigPath cwd) v
      | _ => (res500, [])
    else unknownResp
  else if req.url = jstr "/__dev-editor/memes" then
    if !req.ioOk then (res500, [])
    else if req.method = jstr "GET" then configGetH fs (memesConfigPath cwd)
    else if req.method = jstr "POST" then
      match req.body with
      | ReqBody.json v => configPostH (memesConfigPath cwd) v
      | _ => (res500, [])
    else unknownResp
  else if req.url = jstr "/__dev-editor/upload-meme" ∧ req.method = jstr "POST" then
    match req.body with
    | ReqBody.upload fn m d => uploadMemeH cwd req.ioOk fn m d
    | _ => (res500, [])
  else if req.url = jstr "/__dev-editor/delete-meme" ∧ req.method = jstr "DELETE" then
    match req.body with
    | ReqBody.del p => deleteMemeH cwd fs req.ioOk p
    | _ => (res500, [])
  else if req.url = jstr "/__dev-editor/list-memes" ∧ req.method = jstr "GET" then
    listH req.ioOk
  else unknownResp

/-! ### Path lemmas -/

theorem splitSlash_ne_nil (l : JStr) : splitSlash l ≠ [] := by
  cases l with
  | nil => simp [splitSlash]
  | cons c rest =>
    rw [splitSlash]
    by_cases hc : c = '/'
    · simp [hc]
    · simp only [if_neg hc]
      cases h : splitSlash rest <;> simp

theorem splitSlash_no_slash {l : JStr} (h : ∀ c ∈ l, c ≠ '/') :
    splitSlash l = [l] := by
  induction l with
  | nil => rfl
  | cons c rest ih =>
    rw [splitSlash, if_neg (h c (by simp)), ih (fun x hx => h x (by simp [hx]))]

theorem splitSlash_append (a b : JStr) :
    splitSlash (a ++ '/' :: b) = splitSlash a ++ splitSlash b := by
  induction a with
  | nil => simp [splitSlash]
  | cons c a' ih =>
    by_cases hc : c = '/'
    · subst hc
      rw [List.cons_append, splitSlash, if_pos rfl, ih, splitSlash, if_pos rfl,
        List.cons_append]
    · rw [List.cons_append, splitSlash, if_neg hc, ih, splitSlash, if_neg hc]
      cases h : splitSlash a' with
      | nil => exact absurd h (splitSlash_ne_nil a')
      | cons l ls => simp

theorem splitSlash_mem (l : JStr) : ∀ s ∈ splitSlash l, ∀ c ∈ s, c ≠ '/' := by
  induction l with
  | nil =>
    intro s hs
    simp only [splitSlash, List.mem_singleton] at hs
    subst hs
    simp
  | cons a rest ih =>
    intro s hs
    rw [splitSlash] at hs
    by_cases ha : a = '/'
    · rw [if_pos ha] at hs
      rcases List.mem_cons.mp hs with hs | hs
      · subst hs; simp
      · exact ih s hs
    · rw [if_neg ha] at hs
      cases h : splitSlash rest with
      | nil => exact absurd h (splitSlash_ne_nil rest)
      | cons l ls =>
        rw [h] at hs
        rcases List.mem_cons.mp hs with hs | hs
        · subst hs
          intro c hc
          rcases List.mem_cons.mp hc with hc | hc
          · exact hc ▸ ha
          · exact ih l (h ▸ List.mem_cons_self _ _) c hc
        · exact ih s (h ▸ List.mem_cons_of_mem _ hs)

/-- A normalized segment: nonempty and none of the special names. -/
def CleanSeg (s : JStr) : Prop :=
  s ≠ [] ∧ s ≠ jstr "." ∧ s ≠ jstr ".."

theorem normFoldl_mem :
    ∀ (l : List JStr) (acc : List JStr) (s : JStr),
      s ∈ l.foldl (fun acc s =>
        if s = [] ∨ s = jstr "." then acc
        else if s = jstr ".." then acc.dropLast
        else acc ++ [s]) acc →
      s ∈ acc ∨ (s ∈ l ∧ CleanSeg s) := by
  intro l
  induction l with
  | nil =>
    intro acc s hs
    exact Or.inl hs
  | cons t rest ih =>
    intro acc s hs
    rw [List.foldl_cons] at hs
    rcases ih _ s hs with hmem | ⟨hmem, hcl⟩
    · by_cases h1 : t = [] ∨ t = jstr "."
      · rw [if_pos h1] at hmem
        exact Or.inl hmem
      · rw [if_neg h1] at hmem
        by_cases h2 : t = jstr ".."
        · rw [if_pos h2] at hmem
          exact Or.inl ((List.dropLast_sublist _).subset hmem)
        · rw [if_neg h2] at hmem
          rcases List.mem_append.mp hmem with hmem | hmem
          · exact Or.inl hmem
          · simp only [List.mem_singleton] at hmem
            subst hmem
            push_neg at h1
            exact Or.inr ⟨by simp, h1.1, h1.2, h2⟩
    · exact Or.inr ⟨by simp [hmem], hcl⟩

theorem normFoldl_clean_app :
    ∀ (l : List JStr) (acc : List JStr),
      (∀ s ∈ l, CleanSeg s) →
      l.foldl (fun acc s =>
        if s = [] ∨ s = jstr "." then acc
        else if s = jstr ".." then acc.dropLast
        else acc ++ [s]) acc = acc ++ l := by
  intro l
  induction l with
  | nil => intro acc _; simp
  | cons t rest ih =>
    intro acc h
    obtain ⟨h1, h2, h3⟩ := h t (by simp)
    rw [List.foldl_cons, if_neg (by simp [h1, h2]), if_neg h3,
      ih _ (fun s hs => h s (by simp [hs]))]
    simp

theorem normSegs_clean {l : List JStr} :
    ∀ s ∈ normSegs l, s ∈ l ∧ CleanSeg s := by
  intro s hs
  rcases normFoldl_mem l [] s hs with h | h
  · simp at h
  · exact h

theorem normSegs_fixed {l : List JStr} (h : ∀ s ∈ l, CleanSeg s) :
    normSegs l = l := by
  rw [normSegs, normFoldl_clean_app l [] h, List.nil_append]

theorem normSegs_concat (S : List JStr) (f : JStr) :
    normSegs (S ++ [f])
      = (if f = [] ∨ f = jstr "." then normSegs S
        else if f = jstr ".." then (normSegs S).dropLast
        else normSegs S ++ [f]) := by
  rw [normSegs, List.foldl_append]
  rfl

theorem normSegs_cons_nil (l : List JStr) : normSegs ([] :: l) = normSegs l := rfl

theorem foldl_slash_acc :
    ∀ (l : List JStr) (acc : JStr),
      l.foldl (fun acc s => acc ++ '/' :: s) acc
        = acc ++ l.flatMap (fun s => '/' :: s) := by
  intro l
  induction l with
  | nil => intro acc; simp
  | cons t rest ih =>
    intro acc
    rw [List.foldl_cons, ih, List.flatMap_cons]
    simp

theorem pathOfSegs_flatMap {l : List JStr} (h : l ≠ []) :
    pathOfSegs l = l.flatMap (fun s => '/' :: s) := by
  rw [pathOfSegs, if_neg (by simp [h]), foldl_slash_acc]
  simp

theorem pathOfSegs_concat {l : List JStr} (h : l ≠ []) (f : JStr) :
    pathOfSegs (l ++ [f]) = pathOfSegs l ++ '/' :: f := by
  rw [pathOfSegs_flatMap (by simp), pathOfSegs_flatMap h, List.flatMap_append]
  simp

theorem splitSlash_flatMap :
    ∀ (l : List JStr), l ≠ [] → (∀ s ∈ l, ∀ c ∈ s, c ≠ '/') →
      splitSlash (l.flatMap (fun s => '/' :: s)) = [] :: l := by
  intro l
  induction l with
  | nil => intro h _; exact absurd rfl h
  | cons s rest ih =>
    intro _ hns
    cases rest with
    | nil =>
      have hfm : ([s] : List JStr).flatMap (fun s => '/' :: s) = '/' :: s := by simp
      rw [hfm, splitSlash, if_pos rfl, splitSlash_no_slash (hns s (by simp))]
    | cons t rr =>
      have hfm2 : ((t :: rr) : List JStr).flatMap (fun s => '/' :: s)
          = '/' :: (t ++ (rr.flatMap (fun s => '/' :: s))) := by
        simp [List.flatMap_cons]
      have ihr := ih (by simp) (fun x hx => hns x (by simp [hx]))
      rw [hfm2, splitSlash, if_pos rfl] at ihr
      have ihr2 : splitSlash (t ++ rr.flatMap (fun s => '/' :: s)) = t :: rr := by
        injection ihr
      rw [List.flatMap_cons, List.cons_append, splitSlash, if_pos rfl, hfm2,
        splitSlash_append, splitSlash_no_slash (hns s (by simp)), ihr2]
      rfl

theorem splitSlash_pathOfSegs {l : List JStr} (hne : l ≠ [])
    (h : ∀ s ∈ l, ∀ c ∈ s, c ≠ '/') :
    splitSlash (pathOfSegs l) = [] :: l := by
  rw [pathOfSegs_flatMap hne]
  exact splitSlash_flatMap l hne h

/-- A fully normalized nonroot path: nonempty clean slash-free segments. -/
def GoodSegs (S : List JStr) : Prop :=
  S ≠ [] ∧ ∀ s ∈ S, CleanSeg s ∧ ∀ c ∈ s, c ≠ '/'

theorem resolvePath_pathOfSegs {S : List JStr} (hS : GoodSegs S)
    {f : JStr} (hf : f ≠ []) (hfs : ∀ c ∈ f, c ≠ '/') :
    resolvePath (pathOfSegs S) f = pathOfSegs (normSegs (S ++ [f])) := by
  obtain ⟨hne, hcl⟩ := hS
  have hhead : ¬(f.head? = some '/') := by
    cases f with
    | nil => exact absurd rfl hf
    | cons c r =>
      simp only [List.head?_cons, Option.some.injEq]
      exact fun hc => hfs c (by simp) hc
  rw [resolvePath]
  simp only [if_neg hhead]
  have hsplit : splitSlash (pathOfSegs S ++ '/' :: f)
      = ([] :: S) ++ [f] := by
    rw [splitSlash_append, splitSlash_pathOfSegs hne (fun s hs => (hcl s hs).2),
      splitSlash_no_slash hfs]
  rw [hsplit]
  have hcons : (([] : JStr) :: S) ++ [f] = [] :: (S ++ [f]) := rfl
  rw [hcons, normSegs_cons_nil]

theorem length_pathOfSegs_dropLast {S : List JStr} (hS : GoodSegs S) :
    (pathOfSegs S.dropLast).length < (pathOfSegs S).length := by
  obtain ⟨hne, hcl⟩ := hS
  rcases List.eq_nil_or_concat S with rfl | ⟨S0, x, hSx⟩
  · exact absurd rfl hne
  · rw [List.concat_eq_append] at hSx
    subst hSx
    have hdl : ((S0 ++ [x]) : List JStr).dropLast = S0 := by simp
    rw [hdl]
    have hx : x ≠ [] := ((hcl x (by simp)).1).1
    have hxlen : 1 ≤ x.length := by
      cases x with
      | nil => exact absurd rfl hx
      | cons a r => simp
    cases S0 with
    | nil =>
      have h2 : pathOfSegs [x] = '/' :: x := by
        rw [pathOfSegs_flatMap (by simp)]
        simp
      have h1 : pathOfSegs ([] : List JStr) = ['/'] := rfl
      rw [show (([] : List JStr) ++ [x]) = [x] from rfl, h1, h2]
      simp only [List.length_cons, List.length_nil]
      omega
    | cons a r =>
      rw [pathOfSegs_concat (by simp)]
      simp only [List.length_append, List.length_cons]
      omega

theorem not_prefix_of_longer {a b : JStr} (h : b.length < a.length) :
    a.isPrefixOf b = false := by
  by_contra hcon
  simp only [Bool.not_eq_false] at hcon
  have := (List.isPrefixOf_iff_prefix.mp hcon).length_le
  omega

/-- The gallery directory is a normalized nonroot path whose segments end
with `public, gallery`. -/
theorem galleryDir_structure (cwd : JStr) :
    ∃ S, GoodSegs S ∧ galleryDir cwd = pathOfSegs S := by
  refine ⟨normSegs (splitSlash cwd) ++ [jstr "public", jstr "gallery"],
    ⟨by simp, ?_⟩, ?_⟩
  · intro s hs
    rcases List.mem_append.mp hs with hs | hs
    · obtain ⟨hmem, hcl⟩ := normSegs_clean s hs
      exact ⟨hcl, splitSlash_mem cwd s hmem⟩
    · rcases List.mem_cons.mp hs with rfl | hs
      · exact ⟨⟨by decide, by decide, by decide⟩, by decide⟩
      · simp only [List.mem_singleton] at hs
        subst hs
        exact ⟨⟨by decide, by decide, by decide⟩, by decide⟩
  · rw [galleryDir, resolvePath]
    have hhead : ¬((jstr "public/gallery").head? = some '/') := by decide
    simp only [if_neg hhead]
    have hsplit : splitSlash (cwd ++ '/' :: jstr "public/gallery")
        = splitSlash cwd ++ [jstr "public", jstr "gallery"] := by
      rw [show (jstr "public/gallery") = jstr "public" ++ '/' :: jstr "gallery"
        from rfl, splitSlash_append, splitSlash_append,
        splitSlash_no_slash (l := jstr "public") (by decide),
        splitSlash_no_slash (l := jstr "gallery") (by decide)]
      simp
    rw [hsplit]
    congr 1
    have happ : splitSlash cwd ++ [jstr "public", jstr "gallery"]
        = (splitSlash cwd ++ [jstr "public"]) ++ [jstr "gallery"] := by
      simp
    rw [happ, normSegs_concat, if_neg (by decide), if_neg (by decide),
      normSegs_concat, if_neg (by decide), if_neg (by decide)]
    simp

/-- `path.basename` of a path that has a non-slash character: nonempty and
slash-free. -/
theorem basename_spec {p : JStr} (hc : ∃ c ∈ p, c ≠ '/') :
    basename p ≠ [] ∧ ∀ c ∈ basename p, c ≠ '/' := by
  obtain ⟨c0, hc0, hcs⟩ := hc
  constructor
  · have hq : p.reverse.dropWhile (fun c => c == '/') ≠ [] := by
      rw [Ne, List.dropWhile_eq_nil_iff]
      push_neg
      exact ⟨c0, by simp [hc0], by simp [hcs]⟩
    cases hd : p.reverse.dropWhile (fun c => c == '/') with
    | nil => exact absurd hd hq
    | cons d r =>
      have hdns : (d == '/') = false := by
        apply head?_dropWhile_not (fun c => c == '/') p.reverse
        rw [hd]
        rfl
      rw [basename, hd, List.takeWhile_cons]
      simp only [hdns]
      simp
  · intro c hcm
    rw [basename, List.mem_reverse] at hcm
    have := List.mem_takeWhile_imp hcm
    simpa using this

/-- `p` lies directly inside `dir`: one nonempty slash-free name below. -/
def DirectlyInside (dir p : JStr) : Prop :=
  ∃ f, f ≠ [] ∧ (∀ c ∈ f, c ≠ '/') ∧ p = dir ++ '/' :: f

/-- Every path the gallery delete handler unlinks lies directly inside the
gallery directory (given that the gallery directory itself is not a
regular file, which is what lets `unlink` at the directory itself fail). -/
theorem deleteH_unlink_inside {cwd : JStr} {fs : Fs} {ioOk : Bool}
    {imagePath p : JStr}
    (hdir : ∀ ct, Fs.lookup fs (galleryDir cwd) ≠ some (FsEntry.file ct))
    (hmem : Effect.unlink p ∈ (deleteH cwd fs ioOk imagePath).2) :
    DirectlyInside (galleryDir cwd) p := by
  simp only [deleteH] at hmem
  by_cases h1 : (!((jstr "/gallery/").isPrefixOf imagePath)) = true
  · rw [if_pos h1] at hmem
    simp at hmem
  · rw [if_neg h1] at hmem
    by_cases h2 : (!((galleryDir cwd).isPrefixOf
        (resolvePath (galleryDir cwd) (basename imagePath)))) = true
    · rw [if_pos h2] at hmem
      simp at hmem
    · rw [if_neg h2] at hmem
      obtain ⟨S, hS, hgal⟩ := galleryDir_structure cwd
      have hpre : (jstr "/gallery/").isPrefixOf imagePath = true := by
        simpa using h1
      have hbn : basename imagePath ≠ []
          ∧ ∀ c ∈ basename imagePath, c ≠ '/' := by
        apply basename_spec
        refine ⟨'g', ?_, by decide⟩
        exact (List.isPrefixOf_iff_prefix.mp hpre).subset (by decide)
      have hres : resolvePath (galleryDir cwd) (basename imagePath)
          = pathOfSegs (normSegs (S ++ [basename imagePath])) := by
        rw [hgal]
        exact resolvePath_pathOfSegs hS hbn.1 hbn.2
      by_cases hdot : basename imagePath = jstr "."
      · exfalso
        have hres2 : resolvePath (galleryDir cwd) (basename imagePath)
            = galleryDir cwd := by
          rw [hres, hdot, normSegs_concat, if_pos (Or.inr rfl),
            normSegs_fixed (fun s hs => ((hS.2 s hs).1)), ← hgal]
        rw [hres2] at hmem
        revert hmem
        split
        · simp
        · simp
        · rename_i ct hct
          exact absurd hct (hdir ct)
      · by_cases hdd : basename imagePath = jstr ".."
        · exfalso
          have hcond : ¬((basename imagePath = [])
              ∨ basename imagePath = jstr ".") := by
            rw [hdd]
            decide
          have hres2 : resolvePath (galleryDir cwd) (basename imagePath)
              = pathOfSegs S.dropLast := by
            rw [hres, normSegs_concat, if_neg hcond, if_pos hdd,
              normSegs_fixed (fun s hs => ((hS.2 s hs).1))]
          have hlen := length_pathOfSegs_dropLast hS
          have hnp : (galleryDir cwd).isPrefixOf (pathOfSegs S.dropLast)
              = false := by
            rw [hgal]
            exact not_prefix_of_longer hlen
          rw [hres2, hnp] at h2
          simp at h2
        · have hcond : ¬((basename imagePath = [])
              ∨ basename imagePath = jstr ".") := by
            simp [hbn.1, hdot]
          have hres2 : resolvePath (galleryDir cwd) (basename imagePath)
              = galleryDir cwd ++ '/' :: basename imagePath := by
            rw [hres, normSegs_concat, if_neg hcond, if_neg hdd,
              normSegs_fixed (fun s hs => ((hS.2 s hs).1)),
              pathOfSegs_concat hS.1, ← hgal]
          rw [hres2] at hmem
          revert hmem
          split
          · simp
          · simp
          · intro hmem
            split_ifs at hmem
            · simp at hmem
            · simp only [List.mem_singleton, Effect.unlink.injEq] at hmem
              subst hmem
              exact ⟨basename imagePath, hbn.1, hbn.2, rfl⟩

/-- C2: a DELETE `/__dev-editor/delete` request only removes files directly
inside the gallery directory.  A path that does not begin with `/gallery/`
is rejected with 403 and no filesystem effect, and a traversal attempt
cannot escape: only the basename of the supplied path is resolved against
the gallery directory, so every unlinked path lies one plain name below
`public/gallery`.  The hypothesis `hdir` says the gallery directory itself
is not a regular file (on a real filesystem it is a directory, so `unlink`
at the directory itself cannot succeed). -/
theorem delete_restricted_to_gallery (cwd : JStr) (fs : Fs) (req : Request)
    (hurl : req.url = jstr "/__dev-editor/delete")
    (hmeth : req.method = jstr "DELETE")
    (hdir : ∀ ct, Fs.lookup fs (galleryDir cwd) ≠ some (FsEntry.file ct)) :
    (∀ p, Effect.unlink p ∈ (dispatch cwd fs req).2 →
      DirectlyInside (galleryDir cwd) p)
    ∧ (∀ imagePath, req.body = ReqBody.del imagePath →
        (jstr "/gallery/").isPrefixOf imagePath = false →
        (dispatch cwd fs req).1.status = 403
        ∧ (dispatch cwd fs req).2 = []) := by
  have hd : dispatch cwd fs req
      = match req.body with
        | ReqBody.del p => deleteH cwd fs req.ioOk p
        | _ => (res500, []) := by
    unfold dispatch
    rw [if_neg (by intro hc; rw [hurl] at hc; exact absurd hc.1 (by decide)),
      if_neg (by intro hc; rw [hurl] at hc; exact absurd hc.1 (by decide)),
      if_neg (by intro hc; rw [hurl] at hc; exact absurd hc.1 (by decide)),
      if_pos ⟨hurl, hmeth⟩]
  constructor
  · intro p hp
    rw [hd] at hp
    cases hb : req.body <;> rw [hb] at hp
    case del ip => exact deleteH_unlink_inside hdir hp
    all_goals simp at hp
  · intro imagePath hb hpref
    rw [hd, hb]
    show (deleteH cwd fs req.ioOk imagePath).1.status = 403
        ∧ (deleteH cwd fs req.ioOk imagePath).2 = []
    simp only [deleteH]
    rw [if_pos (by rw [hpref]; rfl)]
    exact ⟨rfl, rfl⟩

/-- A sample filesystem with the gallery directory and one image in it. -/
def galleryFsSample : Fs :=
  [(galleryDir (jstr "/w"), FsEntry.dir),
   (galleryDir (jstr "/w") ++ '/' :: jstr "a.jpg", FsEntry.file (jstr "d"))]

theorem delete_restricted_to_gallery_witness :
    DirectlyInside (galleryDir (jstr "/w"))
        (resolvePath (galleryDir (jstr "/w")) (basename (jstr "/gallery/a.jpg")))
    ∧ (dispatch (jstr "/w") galleryFsSample
        ⟨jstr "/__dev-editor/delete", jstr "DELETE",
          ReqBody.del (jstr "/etc/passwd"), true⟩).1.status = 403 := by
  have hdir : ∀ ct, Fs.lookup galleryFsSample (galleryDir (jstr "/w"))
      ≠ some (FsEntry.file ct) := by
    intro ct h
    have hl : Fs.lookup galleryFsSample (galleryDir (jstr "/w"))
        = some FsEntry.dir := by decide
    rw [hl] at h
    exact FsEntry.noConfusion (Option.some.inj h)
  constructor
  · exact (delete_restricted_to_gallery (jstr "/w") galleryFsSample
        ⟨jstr "/__dev-editor/delete", jstr "DELETE",
          ReqBody.del (jstr "/gallery/a.jpg"), true⟩ rfl rfl hdir).1
      _ (by decide)
  · exact ((delete_restricted_to_gallery (jstr "/w") galleryFsSample
        ⟨jstr "/__dev-editor/delete", jstr "DELETE",
          ReqBody.del (jstr "/etc/passwd"), true⟩ rfl rfl hdir).2
      (jstr "/etc/passwd") rfl (by decide)).1

/-! ## C8: a JSON parser (the `JSON.parse` side of the config round trip)

The parser recognises the JSON grammar over the subset the model's
`Json` type covers: integers, escape-free strings, and the containers.
It is fueled; the fuel needed is bounded by the printed length. -/

/-- JSON whitespace. -/
def isWs (c : Char) : Bool :=
  c.toNat = 32 || c.toNat = 10 || c.toNat = 9 || c.toNat = 13

def skipWs (s : JStr) : JStr := s.dropWhile isWs

/-- The input does not begin with a digit (so a number literal before it
ends where it should). -/
def nonDigitStart : JStr → Bool
  | [] => true
  | c :: _ => !(isDigitCh c)

/-- Body of a string literal up to the closing quote (no escapes: the
safe class the round trip is stated on has none). -/
def parseStringBody : JStr → Option (JStr × JStr)
  | [] => none
  | c :: rest =>
    if c = '"' then some ([], rest)
    else (parseStringBody rest).map (fun p => (c :: p.1, p.2))

/-- An integer literal: optional minus sign, then digits. -/
def parseNum (s : JStr) : Option (Int × JStr) :=
  if s.head? = some '-' then
    (parseDigits (s.tail.takeWhile isDigitCh)).map
      (fun (n : Nat) =>
        (-(n : Int), s.tail.drop (s.tail.takeWhile isDigitCh).length))
  else
    (parseDigits (s.takeWhile isDigitCh)).map
      (fun (n : Nat) => ((n : Int), s.drop (s.takeWhile isDigitCh).length))

mutual

/-- Parse one JSON value, returning it with the unconsumed input. -/
def parseVal : Nat → JStr → Option (Json × JStr)
  | 0, _ => none
  | fuel+1, s0 =>
    if (skipWs s0).head? = some '"' then
      (parseStringBody (skipWs s0).tail).map (fun p => (Json.str p.1, p.2))
    else if (skipWs s0).head? = some '[' then
      if (skipWs (skipWs s0).tail).head? = some ']' then
        some (Json.arr [], (skipWs (skipWs s0).tail).tail)
      else
        (parseItems fuel (skipWs s0).tail).map (fun p => (Json.arr p.1, p.2))
    else if (skipWs s0).head? = some '\x7b' then
      if (skipWs (skipWs s0).tail).head? = some '\x7d' then
        some (Json.obj [], (skipWs (skipWs s0).tail).tail)
      else
        (parseMembers fuel (skipWs s0).tail).map (fun p => (Json.obj p.1, p.2))
    else if (jstr "null").isPrefixOf (skipWs s0) then
      some (Json.null, (skipWs s0).drop 4)
    else if (jstr "true").isPrefixOf (skipWs s0) then
      some (Json.bool true, (skipWs s0).drop 4)
    else if (jstr "false").isPrefixOf (skipWs s0) then
      some (Json.bool false, (skipWs s0).drop 5)
    else
      (parseNum (skipWs s0)).map (fun p => (Json.num p.1, p.2))

/-- Parse the remaining items of a non-empty array, including the
closing bracket. -/
def parseItems : Nat → JStr → Option (List Json × JStr)
  | 0, _ => none
  | fuel+1, s =>
    (parseVal fuel s).bind (fun p =>
      if (skipWs p.2).head? = some ',' then
        (parseItems fuel (skipWs p.2).tail).map (fun q => (p.1 :: q.1, q.2))
      else if (skipWs p.2).head? = some ']' then some ([p.1], (skipWs p.2).tail)
      else none)

/-- Parse the remaining members of a non-empty object, including the
closing brace. -/
def parseMembers : Nat → JStr → Option (List (JStr × Json) × JStr)
  | 0, _ => none
  | fuel+1, s0 =>
    if (skipWs s0).head? = some '"' then
      (parseStringBody (skipWs s0).tail).bind (fun kp =>
        if (skipWs kp.2).head? = some ':' then
          (parseVal fuel (skipWs kp.2).tail).bind (fun vp =>
            if (skipWs vp.2).head? = some ',' then
              (parseMembers fuel (skipWs vp.2).tail).map
                (fun q => ((kp.1, vp.1) :: q.1, q.2))
            else if (skipWs vp.2).head? = some '\x7d' then
              some ([(kp.1, vp.1)], (skipWs vp.2).tail)
            else none)
        else none)
    else none

end

/-- `JSON.parse`: one value and nothing but whitespace after it. -/
def parseJson (s : JStr) : Option Json :=
  (parseVal (s.length + 1) s).bind
    (fun p => if skipWs p.2 = [] then some p.1 else none)

/-- A string the printer emits verbatim between quotes and the parser
reads back: no quote, no backslash, no control characters. -/
def safeStr (s : JStr) : Bool :=
  s.all (fun c => !(c == '"') && !(c == '\\') && 32 ≤ c.toNat)

mutual

/-- The class of JSON values the round trip is stated on: every string
and key is `safeStr`. -/
def SafeJson : Json → Bool
  | Json.null => true
  | Json.bool _ => true
  | Json.num _ => true
  | Json.str s => safeStr s
  | Json.arr l => SafeItems l
  | Json.obj ms => SafeMembers ms

def SafeItems : List Json → Bool
  | [] => true
  | x :: xs => SafeJson x && SafeItems xs

def SafeMembers : List (JStr × Json) → Bool
  | [] => true
  | (k, v) :: ms => safeStr k && SafeJson v && SafeMembers ms

end

mutual

/-- Fuel needed to parse a printed value (bounded by printed length). -/
def jsize : Json → Nat
  | Json.null => 1
  | Json.bool _ => 1
  | Json.num _ => 1
  | Json.str _ => 1
  | Json.arr l => 1 + isize l
  | Json.obj ms => 1 + msize ms

def isize : List Json → Nat
  | [] => 1
  | x :: xs => 1 + jsize x + isize xs

def msize : List (JStr × Json) → Nat
  | [] => 1
  | (_, v) :: ms => 1 + jsize v + msize ms

end

/-! ### Character and whitespace facts for the JSON round trip -/

theorem toNat_digit {c : Char} (h : isDigitCh c = true) :
    48 ≤ c.toNat ∧ c.toNat ≤ 57 := by
  simp only [isDigitCh, Bool.and_eq_true, decide_eq_true_eq] at h
  exact h

theorem isWs_digit_false {c : Char} (h : isDigitCh c = true) : isWs c = false := by
  have h2 := toNat_digit h
  simp only [isWs, Bool.or_eq_false_iff, decide_eq_false_iff_not]
  omega

theorem digit_ne_of {c d : Char} (h : isDigitCh c = true)
    (hd : isDigitCh d = false) : c ≠ d := by
  intro he
  rw [he] at h
  rw [h] at hd
  exact Bool.noConfusion hd

theorem head?_cons_ne {c d : Char} (t : JStr) (h : c ≠ d) :
    ¬((c :: t).head? = some d) := by
  simp only [List.head?_cons, Option.some.injEq]
  exact h

theorem head_eq_of_isPrefixOf {a c : Char} {as t : JStr}
    (h : (a :: as).isPrefixOf (c :: t) = true) : a = c := by
  have h2 : (a == c && as.isPrefixOf t) = true := h
  have h3 : (a == c) = true := by
    cases hac : (a == c) with
    | false => rw [hac, Bool.false_and] at h2; exact Bool.noConfusion h2
    | true => rfl
  exact beq_iff_eq.mp h3

theorem skipWs_cons_ws {c : Char} (h : isWs c = true) (t : JStr) :
    skipWs (c :: t) = skipWs t := by
  simp [skipWs, List.dropWhile_cons, h]

theorem skipWs_cons_neg {c : Char} (h : isWs c = false) (t : JStr) :
    skipWs (c :: t) = c :: t := by
  simp [skipWs, List.dropWhile_cons, h]

theorem spaces_ws (n : Nat) : ∀ c ∈ spaces n, isWs c = true := by
  intro c hc
  rw [spaces] at hc
  rw [List.eq_of_mem_replicate hc]
  decide

theorem skipWs_append_ws {pre : JStr} (h : ∀ c ∈ pre, isWs c = true)
    (x : JStr) : skipWs (pre ++ x) = skipWs x := by
  induction pre with
  | nil => rfl
  | cons c t ih =>
    rw [List.cons_append, skipWs_cons_ws (h c (by simp)),
      ih (fun d hd => h d (by simp [hd]))]

theorem intChars_ne_nil (i : Int) : intChars i ≠ [] := by
  rw [intChars]
  by_cases h : i < 0
  · simp [h]
  · simp only [if_neg h]
    exact natChars_ne_nil _

theorem parseStringBody_roundtrip {s : JStr} (h : safeStr s = true) (r : JStr) :
    parseStringBody (s ++ '"' :: r) = some (s, r) := by
  induction s with
  | nil => rfl
  | cons c t ih =>
    have hsplit : (c == '"') = false ∧ safeStr t = true := by
      simp only [safeStr, List.all_cons, Bool.and_eq_true, Bool.not_eq_true'] at h
      exact ⟨h.1.1.1, h.2⟩
    rw [List.cons_append, parseStringBody,
      if_neg (beq_eq_false_iff_ne.mp hsplit.1), ih hsplit.2, Option.map_some']

theorem takeWhile_digits_append :
    ∀ (a : JStr), (∀ c ∈ a, isDigitCh c = true) →
    ∀ {r : JStr}, nonDigitStart r = true →
    (a ++ r).takeWhile isDigitCh = a := by
  intro a
  induction a with
  | nil =>
    intro _ r hr
    cases r with
    | nil => rfl
    | cons c t =>
      rw [nonDigitStart, Bool.not_eq_true'] at hr
      rw [List.nil_append, List.takeWhile_cons]
      simp [hr]
  | cons c t ih =>
    intro ha r hr
    rw [List.cons_append, List.takeWhile_cons, if_pos (ha c (by simp)),
      ih (fun d hd => ha d (by simp [hd])) hr]

theorem parseNum_intChars (i : Int) {r : JStr} (hr : nonDigitStart r = true) :
    parseNum (intChars i ++ r) = some (i, r) := by
  rw [intChars]
  by_cases hi : i < 0
  · rw [if_pos hi, List.cons_append, parseNum,
      if_pos (show ('-' :: (natChars i.natAbs ++ r)).head? = some '-' from rfl)]
    simp only [List.tail_cons]
    rw [takeWhile_digits_append _ (natChars_all_digits _) hr,
      parseDigits_natChars, Option.map_some']
    show some (-((i.natAbs : Nat) : Int),
      (natChars i.natAbs ++ r).drop (natChars i.natAbs).length) = some (i, r)
    rw [List.drop_left]
    have h2 : -((i.natAbs : Nat) : Int) = i := by omega
    rw [h2]
  · rw [if_neg hi, parseNum]
    have hhead : ¬((natChars i.natAbs ++ r).head? = some '-') := by
      cases hN : natChars i.natAbs with
      | nil => exact absurd hN (natChars_ne_nil _)
      | cons c t =>
        rw [List.cons_append]
        apply head?_cons_ne
        exact digit_ne_of (natChars_head_digit i.natAbs c (by rw [hN]; rfl))
          (by decide)
    rw [if_neg hhead, takeWhile_digits_append _ (natChars_all_digits _) hr,
      parseDigits_natChars, Option.map_some']
    show some (((i.natAbs : Nat) : Int),
      (natChars i.natAbs ++ r).drop (natChars i.natAbs).length) = some (i, r)
    rw [List.drop_left]
    have h2 : ((i.natAbs : Nat) : Int) = i := by omega
    rw [h2]

theorem stringifyAt_head (d : Nat) (v : Json) :
    ∃ c t, stringifyAt d v = c :: t ∧ isWs c = false ∧ c ≠ ']' ∧ c ≠ '\x7d' := by
  cases v with
  | null =>
    exact ⟨'n', jstr "ull", by simp [stringifyAt]; rfl, by decide, by decide,
      by decide⟩
  | bool b =>
    cases b with
    | true =>
      exact ⟨'t', jstr "rue", by simp [stringifyAt]; rfl, by decide, by decide,
        by decide⟩
    | false =>
      exact ⟨'f', jstr "alse", by simp [stringifyAt]; rfl, by decide, by decide,
        by decide⟩
  | num n =>
    cases hI : intChars n with
    | nil => exact absurd hI (intChars_ne_nil n)
    | cons c t =>
      have hc := intChars_head n c (by rw [hI]; rfl)
      refine ⟨c, t, by simp [stringifyAt]; exact hI, ?_, ?_, ?_⟩
      · rcases hc with rfl | hdig
        · decide
        · exact isWs_digit_false hdig
      · rcases hc with rfl | hdig
        · decide
        · exact digit_ne_of hdig (by decide)
      · rcases hc with rfl | hdig
        · decide
        · exact digit_ne_of hdig (by decide)
  | str s =>
    exact ⟨'"', s ++ ['"'], by simp [stringifyAt], by decide, by decide,
      by decide⟩
  | arr l =>
    cases l with
    | nil =>
      exact ⟨'[', [']'], by simp [stringifyAt]; rfl, by decide, by decide,
        by decide⟩
    | cons x xs =>
      exact ⟨'[', '\n' :: (stringifyItems (d + 1) (x :: xs)
          ++ '\n' :: (spaces (2 * d) ++ [']'])),
        by simp [stringifyAt], by decide, by decide, by decide⟩
  | obj ms =>
    cases ms with
    | nil =>
      exact ⟨'\x7b', ['\x7d'], by simp [stringifyAt]; rfl, by decide, by decide,
        by decide⟩
    | cons m rest =>
      exact ⟨'\x7b', '\n' :: (stringifyMembers (d + 1) (m :: rest)
          ++ '\n' :: (spaces (2 * d) ++ ['\x7d'])),
        by simp [stringifyAt], by decide, by decide, by decide⟩

theorem skipWs_stringify (d : Nat) (v : Json) (r : JStr) :
    skipWs (stringifyAt d v ++ r) = stringifyAt d v ++ r := by
  obtain ⟨c, t, hct, hws, _, _⟩ := stringifyAt_head d v
  rw [hct, List.cons_append, skipWs_cons_neg hws]

theorem jsize_pos (v : Json) : 1 ≤ jsize v := by
  cases v <;> simp [jsize]

theorem isize_pos (l : List Json) : 1 ≤ isize l := by
  cases l with
  | nil => simp [isize]
  | cons x xs =>
    simp only [isize]
    omega

theorem msize_pos (l : List (JStr × Json)) : 1 ≤ msize l := by
  cases l with
  | nil => simp [msize]
  | cons m ms =>
    obtain ⟨k, v⟩ := m
    simp only [msize]
    omega

/-- The joint parse/print inverse statement: a printed value parses back,
a printed item list parses back up to its closing bracket, a printed
member list parses back up to its closing brace. -/
theorem parse_stringify_all (fuel : Nat) :
    (∀ v d s r, SafeJson v = true → jsize v ≤ fuel → nonDigitStart r = true →
      skipWs s = stringifyAt d v ++ r → parseVal fuel s = some (v, r))
    ∧ (∀ l d m r s, SafeItems l = true → l ≠ [] → isize l ≤ fuel →
      skipWs s = skipWs (stringifyItems d l ++ ('\n' :: (spaces m ++ (']' :: r)))) →
      parseItems fuel s = some (l, r))
    ∧ (∀ l d m r s, SafeMembers l = true → l ≠ [] → msize l ≤ fuel →
      skipWs s = skipWs (stringifyMembers d l
        ++ ('\n' :: (spaces m ++ ('\x7d' :: r)))) →
      parseMembers fuel s = some (l, r)) := by
  induction fuel using Nat.strong_induction_on with
  | _ fuel ih =>
  refine ⟨?_, ?_, ?_⟩
  · intro v d s r hsafe hfuel hr hs
    cases fuel with
    | zero => exact absurd (le_trans (jsize_pos v) hfuel) (by decide)
    | succ n =>
      simp only [parseVal]
      cases v with
      | null =>
        have he : stringifyAt d Json.null ++ r = 'n' :: (jstr "ull" ++ r) := by
          rw [show stringifyAt d Json.null = jstr "null" from by simp [stringifyAt]]
          rfl
        rw [hs, he,
          if_neg (head?_cons_ne _ (by decide)),
          if_neg (head?_cons_ne _ (by decide)),
          if_neg (head?_cons_ne _ (by decide))]
        have hp : ((jstr "null").isPrefixOf ('n' :: (jstr "ull" ++ r))) = true :=
          List.isPrefixOf_iff_prefix.mpr (List.prefix_append _ _)
        rw [if_pos hp]
        rfl
      | bool b =>
        cases b with
        | true =>
          have he : stringifyAt d (Json.bool true) ++ r
              = 't' :: (jstr "rue" ++ r) := by
            rw [show stringifyAt d (Json.bool true) = jstr "true"
              from by simp [stringifyAt]]
            rfl
          rw [hs, he,
            if_neg (head?_cons_ne _ (by decide)),
            if_neg (head?_cons_ne _ (by decide)),
            if_neg (head?_cons_ne _ (by decide)),
            if_neg (show ¬((jstr "null").isPrefixOf ('t' :: (jstr "rue" ++ r)) = true)
              from fun hc => absurd (head_eq_of_isPrefixOf hc) (by decide))]
          have hp : ((jstr "true").isPrefixOf ('t' :: (jstr "rue" ++ r))) = true :=
            List.isPrefixOf_iff_prefix.mpr (List.prefix_append _ _)
          rw [if_pos hp]
          rfl
        | false =>
          have he : stringifyAt d (Json.bool false) ++ r
              = 'f' :: (jstr "alse" ++ r) := by
            rw [show stringifyAt d (Json.bool false) = jstr "false"
              from by simp [stringifyAt]]
            rfl
          rw [hs, he,
            if_neg (head?_cons_ne _ (by decide)),
            if_neg (head?_cons_ne _ (by decide)),
            if_neg (head?_cons_ne _ (by decide)),
            if_neg (show ¬((jstr "null").isPrefixOf ('f' :: (jstr "alse" ++ r)) = true)
              from fun hc => absurd (head_eq_of_isPrefixOf hc) (by decide)),
            if_neg (show ¬((jstr "true").isPrefixOf ('f' :: (jstr "alse" ++ r)) = true)
              from fun hc => absurd (head_eq_of_isPrefixOf hc) (by decide))]
          have hp : ((jstr "false").isPrefixOf ('f' :: (jstr "alse" ++ r))) = true :=
            List.isPrefixOf_iff_prefix.mpr (List.prefix_append _ _)
          rw [if_pos hp]
          rfl
      | num nv =>
        have he : stringifyAt d (Json.num nv) = intChars nv := by
          simp [stringifyAt]
        rw [hs, he]
        cases hI : intChars nv with
        | nil => exact absurd hI (intChars_ne_nil nv)
        | cons c t =>
          have hcd := intChars_head nv c (by rw [hI]; rfl)
          have hne : ∀ d2 : Char, isDigitCh d2 = false → ¬('-' = d2) → c ≠ d2 := by
            intro d2 h1 h2
            rcases hcd with rfl | hdig
            · exact fun hcon => h2 hcon
            · exact digit_ne_of hdig h1
          rw [List.cons_append,
            if_neg (head?_cons_ne _ (hne '"' (by decide) (by decide))),
            if_neg (head?_cons_ne _ (hne '[' (by decide) (by decide))),
            if_neg (head?_cons_ne _ (hne '\x7b' (by decide) (by decide))),
            if_neg (show ¬((jstr "null").isPrefixOf (c :: (t ++ r)) = true)
              from fun hc => absurd (head_eq_of_isPrefixOf hc).symm
                (hne 'n' (by decide) (by decide))),
            if_neg (show ¬((jstr "true").isPrefixOf (c :: (t ++ r)) = true)
              from fun hc => absurd (head_eq_of_isPrefixOf hc).symm
                (hne 't' (by decide) (by decide))),
            if_neg (show ¬((jstr "false").isPrefixOf (c :: (t ++ r)) = true)
              from fun hc => absurd (head_eq_of_isPrefixOf hc).symm
                (hne 'f' (by decide) (by decide))),
            ← List.cons_append, ← hI, parseNum_intChars nv hr, Option.map_some']
      | str sv =>
        simp only [SafeJson] at hsafe
        have he : stringifyAt d (Json.str sv) ++ r
            = '"' :: ((sv ++ ['"']) ++ r) := by
          rw [show stringifyAt d (Json.str sv) = '"' :: (sv ++ ['"'])
            from by simp [stringifyAt]]
          rfl
        rw [hs, he]
        simp only [List.head?_cons, Option.some.injEq, List.tail_cons]
        rw [if_pos trivial]
        have hps : parseStringBody ((sv ++ ['"']) ++ r) = some (sv, r) := by
          rw [List.append_assoc]
          exact parseStringBody_roundtrip hsafe r
        rw [hps, Option.map_some']
      | arr l =>
        simp only [SafeJson] at hsafe
        cases l with
        | nil =>
          have he : stringifyAt d (Json.arr []) ++ r = '[' :: (']' :: r) := by
            rw [show stringifyAt d (Json.arr []) = jstr "[]"
              from by simp [stringifyAt]]
            rfl
          rw [hs, he]
          simp only [List.head?_cons, Option.some.injEq, List.tail_cons]
          rw [if_neg (show ¬(('[' : Char) = '"') by decide),
            if_pos trivial]
          rw [skipWs_cons_neg (by decide)]
          simp only [List.head?_cons, Option.some.injEq, List.tail_cons]
          rw [if_pos trivial]
        | cons x xs =>
          have he : stringifyAt d (Json.arr (x :: xs)) ++ r
              = '[' :: ('\n' :: (stringifyItems (d + 1) (x :: xs)
                  ++ ('\n' :: (spaces (2 * d) ++ (']' :: r))))) := by
            rw [show stringifyAt d (Json.arr (x :: xs))
                = '[' :: '\n' :: (stringifyItems (d + 1) (x :: xs)
                  ++ '\n' :: (spaces (2 * d) ++ [']']))
              from by simp [stringifyAt]]
            simp [List.cons_append, List.append_assoc]
          rw [hs, he]
          simp only [List.head?_cons, Option.some.injEq, List.tail_cons]
          rw [if_neg (show ¬(('[' : Char) = '"') by decide),
            if_pos trivial]
          obtain ⟨c0, t0, hct0, hws0, hne0, _⟩ := stringifyAt_head (d + 1) x
          have hskipR : ∃ T, skipWs ('\n' :: (stringifyItems (d + 1) (x :: xs)
              ++ ('\n' :: (spaces (2 * d) ++ (']' :: r))))) = c0 :: T := by
            rw [skipWs_cons_ws (by decide)]
            cases xs with
            | nil =>
              rw [show stringifyItems (d + 1) [x]
                  = spaces (2 * (d + 1)) ++ stringifyAt (d + 1) x
                from by simp [stringifyItems], List.append_assoc,
                skipWs_append_ws (spaces_ws _), hct0, List.cons_append,
                skipWs_cons_neg hws0]
              exact ⟨_, rfl⟩
            | cons y ys =>
              rw [show stringifyItems (d + 1) (x :: y :: ys)
                  = spaces (2 * (d + 1)) ++ stringifyAt (d + 1) x
                    ++ ',' :: '\n' :: stringifyItems (d + 1) (y :: ys)
                from by simp [stringifyItems]]
              simp only [List.append_assoc, List.cons_append]
              rw [skipWs_append_ws (spaces_ws _), hct0, List.cons_append,
                skipWs_cons_neg hws0]
              exact ⟨_, rfl⟩
          obtain ⟨T, hT⟩ := hskipR
          rw [hT]
          simp only [List.head?_cons, Option.some.injEq]
          rw [if_neg hne0]
          have hfl : isize (x :: xs) ≤ n := by
            simp only [jsize] at hfuel
            omega
          rw [(ih n (Nat.lt_succ_self n)).2.1 (x :: xs) (d + 1) (2 * d) r _
            hsafe (by simp) hfl (skipWs_cons_ws (by decide) _), Option.map_some']
      | obj ms =>
        simp only [SafeJson] at hsafe
        cases ms with
        | nil =>
          have he : stringifyAt d (Json.obj []) ++ r = '\x7b' :: ('\x7d' :: r) := by
            rw [show stringifyAt d (Json.obj []) = jstr "\x7b\x7d"
              from by simp [stringifyAt]]
            rfl
          rw [hs, he]
          simp only [List.head?_cons, Option.some.injEq, List.tail_cons]
          rw [if_neg (show ¬(('\x7b' : Char) = '"') by decide),
            if_neg (show ¬(('\x7b' : Char) = '[') by decide),
            if_pos trivial]
          rw [skipWs_cons_neg (by decide)]
          simp only [List.head?_cons, Option.some.injEq, List.tail_cons]
          rw [if_pos trivial]
        | cons mh ms' =>
          obtain ⟨k0, v0⟩ := mh
          have he : stringifyAt d (Json.obj ((k0, v0) :: ms')) ++ r
              = '\x7b' :: ('\n' :: (stringifyMembers (d + 1) ((k0, v0) :: ms')
                  ++ ('\n' :: (spaces (2 * d) ++ ('\x7d' :: r))))) := by
            rw [show stringifyAt d (Json.obj ((k0, v0) :: ms'))
                = '\x7b' :: '\n' :: (stringifyMembers (d + 1) ((k0, v0) :: ms')
                  ++ '\n' :: (spaces (2 * d) ++ ['\x7d']))
              from by simp [stringifyAt]]
            simp [List.cons_append, List.append_assoc]
          rw [hs, he]
          simp only [List.head?_cons, Option.some.injEq, List.tail_cons]
          rw [if_neg (show ¬(('\x7b' : Char) = '"') by decide),
            if_neg (show ¬(('\x7b' : Char) = '[') by decide),
            if_pos trivial]
          have hskipR : ∃ T, skipWs ('\n' :: (stringifyMembers (d + 1) ((k0, v0) :: ms')
              ++ ('\n' :: (spaces (2 * d) ++ ('\x7d' :: r))))) = '"' :: T := by
            rw [skipWs_cons_ws (by decide)]
            cases ms' with
            | nil =>
              rw [show stringifyMembers (d + 1) [(k0, v0)]
                  = spaces (2 * (d + 1)) ++ '"' :: (k0 ++ jstr "\": ")
                    ++ stringifyAt (d + 1) v0
                from by simp [stringifyMembers]]
              simp only [List.append_assoc, List.cons_append]
              rw [skipWs_append_ws (spaces_ws _), skipWs_cons_neg (by decide)]
              exact ⟨_, rfl⟩
            | cons m2 ms2 =>
              rw [show stringifyMembers (d + 1) ((k0, v0) :: m2 :: ms2)
                  = spaces (2 * (d + 1)) ++ '"' :: (k0 ++ jstr "\": ")
                    ++ stringifyAt (d + 1) v0
                    ++ ',' :: '\n' :: stringifyMembers (d + 1) (m2 :: ms2)
                from by simp [stringifyMembers]]
              simp only [List.append_assoc, List.cons_append]
              rw [skipWs_append_ws (spaces_ws _), skipWs_cons_neg (by decide)]
              exact ⟨_, rfl⟩
          obtain ⟨T, hT⟩ := hskipR
          rw [hT]
          simp only [List.head?_cons, Option.some.injEq]
          rw [if_neg (show ¬(('"' : Char) = '\x7d') by decide)]
          have hfl : msize ((k0, v0) :: ms') ≤ n := by
            simp only [jsize] at hfuel
            omega
          rw [(ih n (Nat.lt_succ_self n)).2.2 ((k0, v0) :: ms') (d + 1) (2 * d) r _
            hsafe (by simp) hfl (skipWs_cons_ws (by decide) _), Option.map_some']
  · intro l d m r s hsafe hne hfuel hs
    cases fuel with
    | zero => exact absurd (le_trans (isize_pos l) hfuel) (by decide)
    | succ n =>
      cases l with
      | nil => exact absurd rfl hne
      | cons x xs =>
        simp only [parseItems]
        simp only [SafeItems, Bool.and_eq_true] at hsafe
        have hflx : jsize x ≤ n ∧ isize xs ≤ n := by
          simp only [isize] at hfuel
          have h1 := isize_pos xs
          have h2 := jsize_pos x
          omega
        cases xs with
        | nil =>
          have hs1 : skipWs s
              = stringifyAt d x ++ ('\n' :: (spaces m ++ (']' :: r))) := by
            rw [hs, show stringifyItems d [x]
                = spaces (2 * d) ++ stringifyAt d x
              from by simp [stringifyItems], List.append_assoc,
              skipWs_append_ws (spaces_ws _), skipWs_stringify]
          rw [(ih n (Nat.lt_succ_self n)).1 x d s ('\n' :: (spaces m ++ (']' :: r)))
            hsafe.1 hflx.1 rfl hs1, Option.some_bind]
          dsimp only
          rw [skipWs_cons_ws (by decide), skipWs_append_ws (spaces_ws _),
            skipWs_cons_neg (by decide)]
          simp only [List.head?_cons, Option.some.injEq, List.tail_cons]
          rw [if_neg (show ¬((']' : Char) = ',') by decide),
            if_pos trivial]
        | cons y ys =>
          have hs1 : skipWs s = stringifyAt d x
              ++ (',' :: ('\n' :: (stringifyItems d (y :: ys)
                ++ ('\n' :: (spaces m ++ (']' :: r)))))) := by
            rw [hs, show stringifyItems d (x :: y :: ys)
                = spaces (2 * d) ++ stringifyAt d x
                  ++ ',' :: '\n' :: stringifyItems d (y :: ys)
              from by simp [stringifyItems]]
            simp only [List.append_assoc, List.cons_append]
            rw [skipWs_append_ws (spaces_ws _), skipWs_stringify]
          rw [(ih n (Nat.lt_succ_self n)).1 x d s
            (',' :: ('\n' :: (stringifyItems d (y :: ys)
              ++ ('\n' :: (spaces m ++ (']' :: r))))))
            hsafe.1 hflx.1 rfl hs1, Option.some_bind]
          dsimp only
          rw [skipWs_cons_neg (by decide)]
          simp only [List.head?_cons, Option.some.injEq, List.tail_cons]
          rw [if_pos trivial]
          rw [(ih n (Nat.lt_succ_self n)).2.1 (y :: ys) d m r _
            hsafe.2 (by simp) hflx.2 (skipWs_cons_ws (by decide) _),
            Option.map_some']
  · intro l d m r s hsafe hne hfuel hs
    cases fuel with
    | zero => exact absurd (le_trans (msize_pos l) hfuel) (by decide)
    | succ n =>
      cases l with
      | nil => exact absurd rfl hne
      | cons mh ms =>
        obtain ⟨k, v⟩ := mh
        simp only [parseMembers]
        simp only [SafeMembers, Bool.and_eq_true] at hsafe
        have hflx : jsize v ≤ n ∧ msize ms ≤ n := by
          simp only [msize] at hfuel
          have h1 := msize_pos ms
          have h2 := jsize_pos v
          omega
        cases ms with
        | nil =>
          have hs1 : skipWs s = '"' :: (k ++ ('"' :: (':' :: (' '
              :: (stringifyAt d v ++ ('\n' :: (spaces m ++ ('\x7d' :: r)))))))) := by
            rw [hs, show stringifyMembers d [(k, v)]
                = spaces (2 * d) ++ '"' :: (k ++ jstr "\": ") ++ stringifyAt d v
              from by simp [stringifyMembers],
              show jstr "\": " = ['"', ':', ' '] from rfl]
            simp only [List.append_assoc, List.cons_append, List.nil_append]
            rw [skipWs_append_ws (spaces_ws _), skipWs_cons_neg (by decide)]
          rw [hs1]
          simp only [List.head?_cons, Option.some.injEq, List.tail_cons]
          rw [if_pos trivial]
          rw [parseStringBody_roundtrip hsafe.1.1 _, Option.some_bind]
          dsimp only
          rw [skipWs_cons_neg (by decide)]
          simp only [List.head?_cons, Option.some.injEq, List.tail_cons]
          rw [if_pos trivial]
          have hsv : skipWs (' ' :: (stringifyAt d v
              ++ ('\n' :: (spaces m ++ ('\x7d' :: r)))))
              = stringifyAt d v ++ ('\n' :: (spaces m ++ ('\x7d' :: r))) := by
            rw [skipWs_cons_ws (by decide), skipWs_stringify]
          rw [(ih n (Nat.lt_succ_self n)).1 v d _
            ('\n' :: (spaces m ++ ('\x7d' :: r))) hsafe.1.2 hflx.1 rfl hsv,
            Option.some_bind]
          dsimp only
          rw [skipWs_cons_ws (by decide), skipWs_append_ws (spaces_ws _),
            skipWs_cons_neg (by decide)]
          simp only [List.head?_cons, Option.some.injEq, List.tail_cons]
          rw [if_neg (show ¬(('\x7d' : Char) = ',') by decide),
            if_pos trivial]
        | cons m2 ms2 =>
          have hs1 : skipWs s = '"' :: (k ++ ('"' :: (':' :: (' '
              :: (stringifyAt d v ++ (',' :: ('\n' :: (stringifyMembers d (m2 :: ms2)
                ++ ('\n' :: (spaces m ++ ('\x7d' :: r))))))))))) := by
            rw [hs, show stringifyMembers d ((k, v) :: m2 :: ms2)
                = spaces (2 * d) ++ '"' :: (k ++ jstr "\": ") ++ stringifyAt d v
                  ++ ',' :: '\n' :: stringifyMembers d (m2 :: ms2)
              from by simp [stringifyMembers],
              show jstr "\": " = ['"', ':', ' '] from rfl]
            simp only [List.append_assoc, List.cons_append, List.nil_append]
            rw [skipWs_append_ws (spaces_ws _), skipWs_cons_neg (by decide)]
          rw [hs1]
          simp only [List.head?_cons, Option.some.injEq, List.tail_cons]
          rw [if_pos trivial]
          rw [parseStringBody_roundtrip hsafe.1.1 _, Option.some_bind]
          dsimp only
          rw [skipWs_cons_neg (by decide)]
          simp only [List.head?_cons, Option.some.injEq, List.tail_cons]
          rw [if_pos trivial]
          have hsv : skipWs (' ' :: (stringifyAt d v
              ++ (',' :: ('\n' :: (stringifyMembers d (m2 :: ms2)
                ++ ('\n' :: (spaces m ++ ('\x7d' :: r))))))))
              = stringifyAt d v ++ (',' :: ('\n' :: (stringifyMembers d (m2 :: ms2)
                ++ ('\n' :: (spaces m ++ ('\x7d' :: r)))))) := by
            rw [skipWs_cons_ws (by decide), skipWs_stringify]
          rw [(ih n (Nat.lt_succ_self n)).1 v d _
            (',' :: ('\n' :: (stringifyMembers d (m2 :: ms2)
              ++ ('\n' :: (spaces m ++ ('\x7d' :: r)))))) hsafe.1.2 hflx.1 rfl hsv,
            Option.some_bind]
          dsimp only
          rw [skipWs_cons_neg (by decide)]
          simp only [List.head?_cons, Option.some.injEq, List.tail_cons]
          rw [if_pos trivial]
          rw [(ih n (Nat.lt_succ_self n)).2.2 (m2 :: ms2) d m r _
            hsafe.2 (by simp) hflx.2 (skipWs_cons_ws (by decide) _),
            Option.map_some']

/-- The fuel measure is bounded by the printed length (so the fuel
`parseJson` allots, length + 1, always suffices). -/
theorem jsize_le_length_all (n : Nat) :
    (∀ v : Json, sizeOf v ≤ n → ∀ d, jsize v ≤ (stringifyAt d v).length)
    ∧ (∀ l : List Json, sizeOf l ≤ n → ∀ d,
        isize l ≤ (stringifyItems d l).length + 3)
    ∧ (∀ ms : List (JStr × Json), sizeOf ms ≤ n → ∀ d,
        msize ms ≤ (stringifyMembers d ms).length + 3) := by
  induction n using Nat.strong_induction_on with
  | _ n ih =>
  refine ⟨?_, ?_, ?_⟩
  · intro v hv d
    cases v with
    | null =>
      simp only [jsize, stringifyAt]
      decide
    | bool b =>
      cases b <;> (simp only [jsize, stringifyAt]; decide)
    | num nv =>
      simp only [jsize, stringifyAt]
      cases hI : intChars nv with
      | nil => exact absurd hI (intChars_ne_nil nv)
      | cons c t => simp
    | str sv =>
      simp only [jsize, stringifyAt, List.length_cons]
      omega
    | arr l =>
      cases l with
      | nil =>
        simp only [jsize, isize, stringifyAt]
        decide
      | cons x xs =>
        have hsz : sizeOf (x :: xs) < n := by
          have h2 : sizeOf (Json.arr (x :: xs)) = 1 + sizeOf (x :: xs) := by simp
          omega
        have hi := (ih _ hsz).2.1 (x :: xs) (le_refl _) (d + 1)
        simp only [jsize, stringifyAt, List.length_cons, List.length_append,
          List.length_nil]
        omega
    | obj ms =>
      cases ms with
      | nil =>
        simp only [jsize, msize, stringifyAt]
        decide
      | cons mh ms' =>
        have hsz : sizeOf (mh :: ms') < n := by
          have h2 : sizeOf (Json.obj (mh :: ms')) = 1 + sizeOf (mh :: ms') := by
            simp
          omega
        have hi := (ih _ hsz).2.2 (mh :: ms') (le_refl _) (d + 1)
        simp only [jsize, stringifyAt, List.length_cons, List.length_append,
          List.length_nil]
        omega
  · intro l hl d
    cases l with
    | nil =>
      simp only [isize, stringifyItems]
      decide
    | cons x xs =>
      have hszs : sizeOf x < n ∧ sizeOf xs < n := by
        have h2 : sizeOf (x :: xs) = 1 + sizeOf x + sizeOf xs := by simp
        omega
      have hx := (ih _ hszs.1).1 x (le_refl _) d
      cases xs with
      | nil =>
        rw [show stringifyItems d [x] = spaces (2 * d) ++ stringifyAt d x
          from by simp [stringifyItems]]
        simp only [isize, List.length_append]
        omega
      | cons y ys =>
        have hxs := (ih _ hszs.2).2.1 (y :: ys) (le_refl _) d
        rw [show stringifyItems d (x :: y :: ys)
            = spaces (2 * d) ++ stringifyAt d x
              ++ ',' :: '\n' :: stringifyItems d (y :: ys)
          from by simp [stringifyItems]]
        simp only [isize, List.length_append, List.length_cons] at hxs ⊢
        omega
  · intro ms hm d
    cases ms with
    | nil =>
      simp only [msize, stringifyMembers]
      decide
    | cons mh ms' =>
      obtain ⟨k, v⟩ := mh
      have hszs : sizeOf v < n ∧ sizeOf ms' < n := by
        have h2 : sizeOf ((k, v) :: ms') = 1 + (1 + sizeOf k + sizeOf v)
            + sizeOf ms' := by simp
        omega
      have hx := (ih _ hszs.1).1 v (le_refl _) d
      cases ms' with
      | nil =>
        rw [show stringifyMembers d [(k, v)]
            = spaces (2 * d) ++ '"' :: (k ++ jstr "\": ") ++ stringifyAt d v
          from by simp [stringifyMembers]]
        simp only [msize, List.length_append, List.length_cons]
        omega
      | cons m2 ms2 =>
        have hxs := (ih _ hszs.2).2.2 (m2 :: ms2) (le_refl _) d
        rw [show stringifyMembers d ((k, v) :: m2 :: ms2)
            = spaces (2 * d) ++ '"' :: (k ++ jstr "\": ") ++ stringifyAt d v
              ++ ',' :: '\n' :: stringifyMembers d (m2 :: ms2)
          from by simp [stringifyMembers]]
        simp only [msize, List.length_append, List.length_cons] at hxs ⊢
        omega

/-- Parsing a pretty-printed safe JSON value gives the value back. -/
theorem parseJson_stringify {v : Json} (h : SafeJson v = true) :
    parseJson (jsonStringify v) = some v := by
  rw [parseJson]
  have hfuel : jsize v ≤ (jsonStringify v).length + 1 :=
    le_trans ((jsize_le_length_all (sizeOf v)).1 v (le_refl _) 0) (Nat.le_succ _)
  have hs : skipWs (jsonStringify v) = stringifyAt 0 v ++ [] := by
    rw [List.append_nil]
    show skipWs (stringifyAt 0 v) = stringifyAt 0 v
    obtain ⟨c, t, hct, hws, _, _⟩ := stringifyAt_head 0 v
    rw [hct, skipWs_cons_neg hws]
  rw [(parse_stringify_all ((jsonStringify v).length + 1)).1 v 0
    (jsonStringify v) [] h hfuel rfl hs, Option.some_bind]
  rfl

/-- The middleware: requests outside `/__dev-editor/` go to `next()`. -/
def middleware (cwd : JStr) (fs : Fs) (req : Request) :
    Option (Response × List Effect) :=
  if (jstr "/__dev-editor/").isPrefixOf req.url then some (dispatch cwd fs req)
  else none

/-- Apply a handler's effects to the filesystem. -/
def applyEffect (fs : Fs) : Effect → Fs
  | Effect.write p c => (p, FsEntry.file c) :: fs.filter (fun e => !(e.1 == p))
  | Effect.unlink p => fs.filter (fun e => !(e.1 == p))

def applyEffects (fs : Fs) (effs : List Effect) : Fs := effs.foldl applyEffect fs

/-- C8: the gallery and memes configs round-trip through disk as opaque
JSON.  Posting a (safe) JSON value `v` to `/__dev-editor/gallery`
(resp. `/__dev-editor/memes`) writes its pretty-printed form; a
subsequent GET of the same endpoint returns exactly that body, and
parsing the body yields `v` again. -/
theorem config_roundtrip (cwd : JStr) (fs : Fs) (v : Json) (breq : ReqBody)
    (hsafe : SafeJson v = true) :
    ((dispatch cwd
        (applyEffects fs (dispatch cwd fs
          ⟨jstr "/__dev-editor/gallery", jstr "POST", ReqBody.json v, true⟩).2)
        ⟨jstr "/__dev-editor/gallery", jstr "GET", breq, true⟩).1
      = res200 (jsonStringify v)
     ∧ parseJson (jsonStringify v) = some v)
    ∧ ((dispatch cwd
        (applyEffects fs (dispatch cwd fs
          ⟨jstr "/__dev-editor/memes", jstr "POST", ReqBody.json v, true⟩).2)
        ⟨jstr "/__dev-editor/memes", jstr "GET", breq, true⟩).1
      = res200 (jsonStringify v)
     ∧ parseJson (jsonStringify v) = some v) := by
  have hget : ∀ (fs2 : Fs) (url : JStr) (cp : JStr),
      dispatch cwd fs2 ⟨url, jstr "GET", breq, true⟩
        = configGetH fs2 cp →
      Fs.lookup fs2 cp = some (FsEntry.file (jsonStringify v)) →
      (dispatch cwd fs2 ⟨url, jstr "GET", breq, true⟩).1
        = res200 (jsonStringify v) := by
    intro fs2 url cp hdisp hlk
    rw [hdisp]
    unfold configGetH
    rw [hlk]
  have hpostG : dispatch cwd fs
      ⟨jstr "/__dev-editor/gallery", jstr "POST", ReqBody.json v, true⟩
      = configPostH (galleryConfigPath cwd) v := by
    unfold dispatch
    dsimp only
    rw [if_neg (by decide), if_neg (by decide), if_neg (by decide),
      if_neg (by decide), if_neg (by decide), if_neg (by decide),
      if_pos (by decide), if_neg (by decide), if_neg (by decide),
      if_pos (by decide)]
  have hpostM : dispatch cwd fs
      ⟨jstr "/__dev-editor/memes", jstr "POST", ReqBody.json v, true⟩
      = configPostH (memesConfigPath cwd) v := by
    unfold dispatch
    dsimp only
    rw [if_neg (by decide), if_neg (by decide), if_neg (by decide),
      if_neg (by decide), if_neg (by decide), if_neg (by decide),
      if_neg (by decide), if_pos (by decide), if_neg (by decide),
      if_neg (by decide), if_pos (by decide)]
  have hgetG : ∀ fs2 : Fs, dispatch cwd fs2
      ⟨jstr "/__dev-editor/gallery", jstr "GET", breq, true⟩
      = configGetH fs2 (galleryConfigPath cwd) := by
    intro fs2
    unfold dispatch
    dsimp only
    rw [if_neg (by decide), if_neg (by decide), if_neg (by decide),
      if_neg (by decide), if_neg (by decide), if_neg (by decide),
      if_pos (by decide), if_neg (by decide), if_pos (by decide)]
  have hgetM : ∀ fs2 : Fs, dispatch cwd fs2
      ⟨jstr "/__dev-editor/memes", jstr "GET", breq, true⟩
      = configGetH fs2 (memesConfigPath cwd) := by
    intro fs2
    unfold dispatch
    dsimp only
    rw [if_neg (by decide), if_neg (by decide), if_neg (by decide),
      if_neg (by decide), if_neg (by decide), if_neg (by decide),
      if_neg (by decide), if_pos (by decide), if_neg (by decide),
      if_pos (by decide)]
  have hlk : ∀ cp : JStr,
      Fs.lookup (applyEffects fs (configPostH cp v).2) cp
        = some (FsEntry.file (jsonStringify v)) := by
    intro cp
    show Fs.lookup ((cp, FsEntry.file (jsonStringify v))
        :: fs.filter (fun e => !(e.1 == cp))) cp = _
    rw [Fs.lookup, if_pos rfl]
  refine ⟨⟨?_, parseJson_stringify hsafe⟩, ⟨?_, parseJson_stringify hsafe⟩⟩
  · rw [hpostG]
    exact hget _ _ _ (hgetG _) (hlk _)
  · rw [hpostM]
    exact hget _ _ _ (hgetM _) (hlk _)

theorem config_roundtrip_witness :
    ((dispatch (jstr "/w")
        (applyEffects [] (dispatch (jstr "/w") []
          ⟨jstr "/__dev-editor/gallery", jstr "POST",
            ReqBody.json (Json.obj [(jstr "images",
              Json.arr [Json.str (jstr "a.jpg"), Json.num 3])]), true⟩).2)
        ⟨jstr "/__dev-editor/gallery", jstr "GET", ReqBody.malformed, true⟩).1
      = res200 (jsonStringify (Json.obj [(jstr "images",
          Json.arr [Json.str (jstr "a.jpg"), Json.num 3])]))
     ∧ parseJson (jsonStringify (Json.obj [(jstr "images",
          Json.arr [Json.str (jstr "a.jpg"), Json.num 3])]))
        = some (Json.obj [(jstr "images",
          Json.arr [Json.str (jstr "a.jpg"), Json.num 3])]))
    ∧ ((dispatch (jstr "/w")
        (applyEffects [] (dispatch (jstr "/w") []
          ⟨jstr "/__dev-editor/memes", jstr "POST",
            ReqBody.json (Json.obj [(jstr "images",
              Json.arr [Json.str (jstr "a.jpg"), Json.num 3])]), true⟩).2)
        ⟨jstr "/__dev-editor/memes", jstr "GET", ReqBody.malformed, true⟩).1
      = res200 (jsonStringify (Json.obj [(jstr "images",
          Json.arr [Json.str (jstr "a.jpg"), Json.num 3])]))
     ∧ parseJson (jsonStringify (Json.obj [(jstr "images",
          Json.arr [Json.str (jstr "a.jpg"), Json.num 3])]))
        = some (Json.obj [(jstr "images",
          Json.arr [Json.str (jstr "a.jpg"), Json.num 3])])) :=
  config_roundtrip (jstr "/w") [] _ ReqBody.malformed
    (by simp [SafeJson, SafeMembers, SafeItems]; constructor <;> decide)

/-! ## C6: the statuses the dispatcher can produce -/

/-- The status codes of the dispatcher (409 from the create handler's
already-exists branch included). -/
def statusCodes : List Nat := [200, 400, 403, 404, 409, 500]

theorem saveH_status (cwd : JStr) (ioOk : Bool) (fp c : JStr) :
    (saveH cwd ioOk fp c).1.status ∈ statusCodes := by
  simp only [saveH]
  split_ifs <;> simp [res200, resErr, res500, statusCodes]

theorem createH_status (cwd : JStr) (fs : Fs) (ioOk : Bool) (c s : JStr)
    (f : List (JStr × FmValue)) (b : JStr) :
    (createH cwd fs ioOk c s f b).1.status ∈ statusCodes := by
  simp only [createH]
  split_ifs <;> simp [res200, resErr, res500, statusCodes]

theorem uploadH_status (cwd : JStr) (ioOk : Bool) (fn : JStr)
    (m : Option JStr) (d : JStr) :
    (uploadH cwd ioOk fn m d).1.status ∈ statusCodes := by
  simp only [uploadH]
  split_ifs <;> simp [res200, resErr, res500, statusCodes]

theorem uploadMemeH_status (cwd : JStr) (ioOk : Bool) (fn : JStr)
    (m : Option JStr) (d : JStr) :
    (uploadMemeH cwd ioOk fn m d).1.status ∈ statusCodes := by
  simp only [uploadMemeH]
  split_ifs <;> simp [res200, resErr, res500, statusCodes]

theorem deleteH_status (cwd : JStr) (fs : Fs) (ioOk : Bool) (p : JStr) :
    (deleteH cwd fs ioOk p).1.status ∈ statusCodes := by
  simp only [deleteH]
  split_ifs <;> (try split) <;> (try split_ifs) <;>
    simp [res200, resErr, res500, statusCodes]

theorem deleteMemeH_status (cwd : JStr) (fs : Fs) (ioOk : Bool) (p : JStr) :
    (deleteMemeH cwd fs ioOk p).1.status ∈ statusCodes := by
  simp only [deleteMemeH]
  split_ifs <;> (try split) <;> (try split_ifs) <;>
    simp [res200, resErr, res500, statusCodes]

theorem convertH_status (ioOk : Bool) : (convertH ioOk).1.status ∈ statusCodes := by
  simp only [convertH]
  split_ifs <;> simp [res500, statusCodes]

theorem listH_status (ioOk : Bool) : (listH ioOk).1.status ∈ statusCodes := by
  simp only [listH]
  split_ifs <;> simp [res500, statusCodes]

theorem configGetH_status (fs : Fs) (p : JStr) :
    (configGetH fs p).1.status ∈ statusCodes := by
  simp only [configGetH]
  split <;> simp [res200, res500, statusCodes]

theorem configPostH_status (p : JStr) (v : Json) :
    (configPostH p v).1.status ∈ statusCodes := by
  simp [configPostH, res200, statusCodes]

theorem res500_status : (res500, ([] : List Effect)).1.status ∈ statusCodes := by
  simp [res500, statusCodes]

theorem unknownResp_status : unknownResp.1.status ∈ statusCodes := by
  simp [unknownResp, statusCodes]

theorem ite_status {c : Prop} [Decidable c] {a b : Response × List Effect}
    (ha : a.1.status ∈ statusCodes) (hb : b.1.status ∈ statusCodes) :
    (if c then a else b).1.status ∈ statusCodes := by
  split
  · exact ha
  · exact hb

set_option maxHeartbeats 1000000 in
/-- C6 (amended): every response of the dev-editor dispatcher has status
200 (success) or one of 400, 403, 404, 409, 500; no other status code is
ever produced. -/
theorem dispatch_status_exhaustive (cwd : JStr) (fs : Fs) (req : Request) :
    (dispatch cwd fs req).1.status ∈ statusCodes := by
  obtain ⟨url, method, body, ioOk⟩ := req
  cases body <;>
    (unfold dispatch
     dsimp only
     repeat' first | apply ite_status | split
     all_goals
       first
       | exact configGetH_status _ _
       | exact configPostH_status _ _
       | simp [statusCodes, res200, resErr, res500, unknownResp, RespBody.data])

/-- C6 is false as stated: a POST to the create endpoint whose target file
already exists is answered with status 409, which is a non-success status
outside the claimed set 400/403/404/500. -/
theorem create_conflict_409_counterexample :
    (dispatch (jstr "/w")
      [(createTargetPath (jstr "/w") (jstr "blog") (jstr "x"), FsEntry.file [])]
      ⟨jstr "/__dev-editor/create", jstr "POST",
        ReqBody.create (jstr "blog") (jstr "x") [] [], true⟩).1.status = 409
    ∧ (409 : Nat) ∉ [200, 400, 403, 404, 500] := by
  have hslug : slugify (jstr "x") = jstr "x" := by
    apply slugify_fixed
    · decide
    · decide
    · intro c hc
      rw [show (jstr "x") = ['x'] from rfl] at hc
      simp only [List.head?_cons, Option.some.injEq] at hc
      subst hc
      decide
    · intro c hc
      rw [show (jstr "x") = ['x'] from rfl] at hc
      simp only [List.getLast?_singleton, Option.some.injEq] at hc
      subst hc
      decide
  refine ⟨?_, by decide⟩
  unfold dispatch
  dsimp only
  rw [if_neg (by decide), if_pos (by decide)]
  show (createH (jstr "/w")
    [(createTargetPath (jstr "/w") (jstr "blog") (jstr "x"), FsEntry.file [])]
    true (jstr "blog") (jstr "x") [] []).1.status = 409
  simp only [createH, hslug]
  rw [if_neg (by decide), if_neg (by decide), if_pos (by decide)]
  rfl

/-! ## C7: unknown endpoints answer 404 -/

/-- The URL-and-method combinations the dispatcher implements. -/
def endpointTable : List (JStr × JStr) :=
  [(jstr "/__dev-editor/save", jstr "POST"),
   (jstr "/__dev-editor/create", jstr "POST"),
   (jstr "/__dev-editor/upload", jstr "POST"),
   (jstr "/__dev-editor/delete", jstr "DELETE"),
   (jstr "/__dev-editor/convert-heic", jstr "POST"),
   (jstr "/__dev-editor/list-images", jstr "GET"),
   (jstr "/__dev-editor/gallery", jstr "GET"),
   (jstr "/__dev-editor/gallery", jstr "POST"),
   (jstr "/__dev-editor/memes", jstr "GET"),
   (jstr "/__dev-editor/memes", jstr "POST"),
   (jstr "/__dev-editor/upload-meme", jstr "POST"),
   (jstr "/__dev-editor/delete-meme", jstr "DELETE"),
   (jstr "/__dev-editor/list-memes", jstr "GET")]

/-- C7: a request whose URL is under `/__dev-editor/` but whose
URL-and-method pair implements no endpoint is answered 404 with body
`{"error":"Unknown endpoint"}` (filesystem calls succeeding; for the two
config URLs an unmatched method still runs a `mkdir` first whose failure
would answer 500 instead). -/
theorem unknown_endpoint_404 (cwd : JStr) (fs : Fs) (req : Request)
    (hpre : (jstr "/__dev-editor/").isPrefixOf req.url = true)
    (hio : req.ioOk = true)
    (hnot : (req.url, req.method) ∉ endpointTable) :
    middleware cwd fs req
      = some (⟨404, RespBody.exact (jstr "\x7b\"error\":\"Unknown endpoint\"\x7d")⟩, []) := by
  rw [middleware, if_pos hpre]
  obtain ⟨url, method, body, ioOk⟩ := req
  simp only at hio hnot
  subst hio
  have hn : ∀ u m, (u, m) ∈ endpointTable → ¬(url = u ∧ method = m) := by
    rintro u m hm ⟨h1, h2⟩
    subst h1
    subst h2
    exact hnot hm
  unfold dispatch
  dsimp only
  rw [if_neg (hn _ _ (by decide)), if_neg (hn _ _ (by decide)),
    if_neg (hn _ _ (by decide)), if_neg (hn _ _ (by decide)),
    if_neg (hn _ _ (by decide)), if_neg (hn _ _ (by decide))]
  by_cases hg : url = jstr "/__dev-editor/gallery"
  · rw [if_pos hg, if_neg (by decide),
      if_neg (fun hm => hn _ _ (by decide) ⟨hg, hm⟩),
      if_neg (fun hm => hn _ _ (by decide) ⟨hg, hm⟩)]
    rfl
  · rw [if_neg hg]
    by_cases hm : url = jstr "/__dev-editor/memes"
    · rw [if_pos hm, if_neg (by decide),
        if_neg (fun hmm => hn _ _ (by decide) ⟨hm, hmm⟩),
        if_neg (fun hmm => hn _ _ (by decide) ⟨hm, hmm⟩)]
      rfl
    · rw [if_neg hm, if_neg (hn _ _ (by decide)), if_neg (hn _ _ (by decide)),
        if_neg (hn _ _ (by decide))]
      rfl

/-! ## C9: the create endpoint never overwrites -/

theorem createH_no_overwrite (cwd : JStr) (fs : Fs) (ioOk : Bool)
    (c s : JStr) (f : List (JStr × FmValue)) (b : JStr) :
    (∀ p ct, Effect.write p ct ∈ (createH cwd fs ioOk c s f b).2 →
      Fs.existsSync fs p = false)
    ∧ (Fs.existsSync fs (createTargetPath cwd c (slugify s)) = true →
        allowedCollections.contains c = true →
        (slugify s).isEmpty = false →
        (createH cwd fs ioOk c s f b).1.status = 409
        ∧ (createH cwd fs ioOk c s f b).2 = []) := by
  constructor
  · intro p ct hmem
    simp only [createH] at hmem
    split_ifs at hmem with h1 h2 h3 h4
    · simp at hmem
    · simp at hmem
    · simp at hmem
    · simp at hmem
    · simp only [List.mem_singleton, Effect.write.injEq] at hmem
      rw [hmem.1]
      simpa using h3
  · intro hex hcoll hslug
    simp only [createH]
    rw [if_neg (by simp only [hcoll]; decide), if_neg (by simp only [hslug]; decide),
      if_pos hex]
    exact ⟨rfl, rfl⟩

/-- C9: the create endpoint writes only to a path that did not exist; when
its target `<slug>.md` already exists it answers 409 and performs no
filesystem effect. -/
theorem create_never_overwrites (cwd : JStr) (fs : Fs) (req : Request)
    (hurl : req.url = jstr "/__dev-editor/create")
    (hmeth : req.method = jstr "POST") :
    (∀ p ct, Effect.write p ct ∈ (dispatch cwd fs req).2 →
      Fs.existsSync fs p = false)
    ∧ (∀ collection slug fm body,
        req.body = ReqBody.create collection slug fm body →
        Fs.existsSync fs (createTargetPath cwd collection (slugify slug)) = true →
        allowedCollections.contains collection = true →
        (slugify slug).isEmpty = false →
        (dispatch cwd fs req).1.status = 409
        ∧ (dispatch cwd fs req).2 = []) := by
  have hd : dispatch cwd fs req
      = match req.body with
        | ReqBody.create c s f b => createH cwd fs req.ioOk c s f b
        | _ => (res500, []) := by
    unfold dispatch
    rw [if_neg (by
      intro hc
      rw [hurl] at hc
      exact absurd hc.1 (by decide)), if_pos ⟨hurl, hmeth⟩]
  constructor
  · intro p ct hmem
    rw [hd] at hmem
    cases hb : req.body <;> rw [hb] at hmem
    case create c s f b =>
      exact (createH_no_overwrite cwd fs req.ioOk c s f b).1 p ct hmem
    all_goals simp at hmem
  · intro collection slug fm body hb hex hcoll hslug
    rw [hd, hb]
    exact (createH_no_overwrite cwd fs req.ioOk collection slug fm body).2
      hex hcoll hslug

/-- `slugify` at the concrete slug `x` (shared by the concrete-instance
theorems; `slugify` is defined by well-founded recursion, so the kernel
does not evaluate it and the fixed-point lemma is used instead). -/
theorem slugify_jstr_x : slugify (jstr "x") = jstr "x" := by
  apply slugify_fixed
  · decide
  · decide
  · intro c hc
    rw [show (jstr "x") = ['x'] from rfl] at hc
    simp only [List.head?_cons, Option.some.injEq] at hc
    subst hc
    decide
  · intro c hc
    rw [show (jstr "x") = ['x'] from rfl] at hc
    simp only [List.getLast?_singleton, Option.some.injEq] at hc
    subst hc
    decide

/-- Witness for C9: a create request for `blog/x.md` over a filesystem
where that file exists is answered 409 with no effects. -/
theorem create_never_overwrites_witness :
    (dispatch (jstr "/w")
        [(createTargetPath (jstr "/w") (jstr "blog") (jstr "x"), FsEntry.file [])]
        ⟨jstr "/__dev-editor/create", jstr "POST",
          ReqBody.create (jstr "blog") (jstr "x") [] [], true⟩).1.status = 409
    ∧ (dispatch (jstr "/w")
        [(createTargetPath (jstr "/w") (jstr "blog") (jstr "x"), FsEntry.file [])]
        ⟨jstr "/__dev-editor/create", jstr "POST",
          ReqBody.create (jstr "blog") (jstr "x") [] [], true⟩).2 = [] := by
  apply (create_never_overwrites (jstr "/w")
      [(createTargetPath (jstr "/w") (jstr "blog") (jstr "x"), FsEntry.file [])]
      ⟨jstr "/__dev-editor/create", jstr "POST",
        ReqBody.create (jstr "blog") (jstr "x") [] [], true⟩ rfl rfl).2
    (jstr "blog") (jstr "x") [] [] rfl
  · rw [slugify_jstr_x]
    decide
  · decide
  · rw [slugify_jstr_x]
    decide

/-! ## C1: the save handler's prefix check is not directory containment -/

/-- Containment of a path in a directory: the directory itself or below
it. -/
def containedIn (dir p : JStr) : Bool :=
  p == dir || (dir ++ ['/']).isPrefixOf p

/-- C1 fails on the code: the save handler guards with
`absolutePath.startsWith(contentDir)` — a string-prefix test without a
trailing separator — so the request body
`{filePath: "src/content/../contentx/evil.md"}` resolves to
`/w/src/contentx/evil.md`, passes the guard, and is written although it is
outside the content directory `/w/src/content`. -/
theorem save_prefix_check_bypassed :
    (dispatch (jstr "/w") []
        ⟨jstr "/__dev-editor/save", jstr "POST",
          ReqBody.save (jstr "src/content/../contentx/evil.md") (jstr "x"), true⟩)
      = (res200 (jstr "\x7b\"success\":true\x7d"),
         [Effect.write (jstr "/w/src/contentx/evil.md") (jstr "x")])
    ∧ containedIn (contentDir (jstr "/w")) (jstr "/w/src/contentx/evil.md")
      = false := ⟨by decide, by decide⟩

/-- Witness for C7 at a concrete request: an unknown path with a known
method. -/
theorem unknown_endpoint_404_witness :
    ((jstr "/__dev-editor/").isPrefixOf (jstr "/__dev-editor/nope") = true)
    ∧ middleware (jstr "/w") []
        ⟨jstr "/__dev-editor/nope", jstr "GET", ReqBody.malformed, true⟩
      = some (⟨404, RespBody.exact (jstr "\x7b\"error\":\"Unknown endpoint\"\x7d")⟩, []) := by
  refine ⟨by decide, ?_⟩
  exact unknown_endpoint_404 _ _ _ (by decide) rfl (by decide)

end DevEditor
